import Mathlib

/-!
Verification of the regression-tree grower in
`src/booster/tree/xgboost_svdf_tree.hpp` (namespace `xgboost::booster`,
classes `RTSelecter`, `RTreeUpdater`, `RTreeTrainer`).

Floating point (`float`/`double`) is modelled by `ℚ`; machine integers by
`ℕ`/`ℤ` with explicit `2^32` arithmetic where the bit-level encoding
matters.  External collaborators that are declared outside `src/` (the
parameter object `TreeParamTrain`, the tree storage `TreeModel`, the CSR
builder, the RNG) are modelled from the spec at their interface, as marked
on each definition.  Definitions come first, theorems afterwards.
-/

namespace XgbSvdf

/-- `rt_eps = 1e-5f` from the source. -/
def rt_eps : ℚ := 1 / 100000

/-- `rt_2eps = rt_eps * 2.0f` from the source. -/
def rt_2eps : ℚ := rt_eps * 2

/-- Modelled from the spec: the parameter object `TreeParamTrain`
(declared in `xgboost_tree_model.h`, outside `src/`).  The spec describes
it as scalar reads plus pure functions over sums (`CalcWeight`, `CalcCost`,
`CalcRootCost`, `need_prune`, `cannot_split`); we keep those functions
abstract as fields, so every theorem quantifying over a `TreeParamTrain`
holds for every realization of the parameter object. -/
structure TreeParamTrain where
  learning_rate : ℚ
  min_child_weight : ℚ
  subsample : ℚ
  default_direction : ℕ
  max_depth : ℕ
  CalcWeight : ℚ → ℚ → ℚ → ℚ
  CalcCost : ℚ → ℚ → ℚ → ℚ
  CalcRootCost : ℚ → ℚ → ℚ
  need_prune : ℚ → ℤ → Bool
  cannot_split : ℚ → ℤ → Bool

namespace RTSelecter

/-- `RTSelecter::Entry` from the source: candidate split description.
`sindex` is the 32-bit word packing the feature index with the
default-direction bit in bit 31. -/
structure Entry where
  loss_chg : ℚ
  start : ℕ
  len : ℕ
  sindex : ℕ
  split_value : ℚ
deriving DecidableEq, Repr

/-- The non-trivial `Entry` constructor from the source:
`if( default_left ) split_index |= (1U << 31); this->sindex = split_index;`. -/
def Entry.make (loss_chg : ℚ) (start : ℕ) (len : ℕ) (split_index : ℕ)
    (split_value : ℚ) (default_left : Bool) : Entry :=
  { loss_chg := loss_chg
    start := start
    len := len
    sindex := if default_left then split_index ||| (1 <<< 31) else split_index
    split_value := split_value }

/-- `Entry::split_index(): return sindex & ((1U<<31) - 1U);`. -/
def Entry.split_index (e : Entry) : ℕ :=
  e.sindex &&& ((1 <<< 31) - 1)

/-- `Entry::default_left(): return (sindex >> 31) != 0;`
(`sindex` is a 32-bit word, so the shift keeps only bit 31). -/
def Entry.default_left (e : Entry) : Bool :=
  (e.sindex >>> 31) != 0

/-- The zero-initialized best entry of a fresh selecter:
`memset(&best_entry, 0, sizeof(best_entry)); best_entry.loss_chg = 0.0f;`. -/
def zeroEntry : Entry :=
  { loss_chg := 0, start := 0, len := 0, sindex := 0, split_value := 0 }

/-- `RTSelecter::push_back`: replace the best entry only under strict `>`. -/
def push_back (best : Entry) (e : Entry) : Entry :=
  if e.loss_chg > best.loss_chg then e else best

/-- The best entry after pushing the candidates of `l` in order into a
fresh selecter (`RTSelecter::select` just returns `best_entry`). -/
def select (l : List Entry) : Entry :=
  l.foldl push_back zeroEntry

end RTSelecter

open RTSelecter

/-! ### The split enumerator (`RTreeUpdater::enumerate_split`) -/

/-- `RTreeUpdater::SCEntry`: one sparse column entry `(fvalue, rindex)`. -/
structure SCEntry where
  fvalue : ℚ
  rindex : ℕ
deriving DecidableEq, Repr

/-- Junk entry used for (provably unreachable) out-of-range column reads. -/
def dummySCEntry : SCEntry := ⟨0, 0⟩

/-- The fixed arguments of one `enumerate_split` call: the training
parameters, the gradient/hessian arrays, the node totals
`(rsum_grad, rsum_hess)`, `root_cost`, `parent_base_weight`, the sorted
column slice `entry[start..end)` (held as the list `entries`, indexed
relative to `start`), and the feature index `findex`. -/
structure EnumCtx where
  param : TreeParamTrain
  grad : ℕ → ℚ
  hess : ℕ → ℚ
  rsum_grad : ℚ
  rsum_hess : ℚ
  root_cost : ℚ
  parent_base_weight : ℚ
  entries : List SCEntry
  start : ℕ
  findex : ℕ

namespace EnumCtx

/-- The gain formula shared by both sweeps:
`CalcCost(csum) + CalcCost(rsum − csum) − root_cost`. -/
def lossOf (ctx : EnumCtx) (csg csh : ℚ) : ℚ :=
  ctx.param.CalcCost csg csh ctx.parent_base_weight +
    ctx.param.CalcCost (ctx.rsum_grad - csg) (ctx.rsum_hess - csh)
      ctx.parent_base_weight - ctx.root_cost

/-- The candidate the forward sweep pushes at position `j` (relative to the
slice start) with accumulated sums `(csg, csh)`:
`Entry(loss_chg, start, j+1-start, findex, threshold, false)`. -/
def fwdCand (ctx : EnumCtx) (j : ℕ) (csg csh : ℚ) : Entry :=
  Entry.make (ctx.lossOf csg csh) ctx.start (j + 1) ctx.findex
    (if j + 1 = ctx.entries.length then
        (ctx.entries.getD j dummySCEntry).fvalue + rt_eps
      else
        (1 / 2) * ((ctx.entries.getD j dummySCEntry).fvalue +
          (ctx.entries.getD (j + 1) dummySCEntry).fvalue))
    false

/-- The forward sweep's valid-split-point test at position `j`, verbatim
from the source: `j == end - 1 || entry[j].fvalue + rt_2eps <
entry[j+1].fvalue`. -/
def validPoint (ctx : EnumCtx) (j : ℕ) : Prop :=
  j + 1 = ctx.entries.length ∨
    (ctx.entries.getD j dummySCEntry).fvalue + rt_2eps <
      (ctx.entries.getD (j + 1) dummySCEntry).fvalue

instance (ctx : EnumCtx) (j : ℕ) : Decidable (ctx.validPoint j) := by
  unfold validPoint
  infer_instance

/-- The forward sweep body (`for j = start; j < end; j++` in the source,
with `j` taken relative to `start`): accumulate `(csum_grad, csum_hess)`,
emit a candidate at each valid split point whose two sides meet
`min_child_weight`, `continue` when the left side is too light, `break`
when the right side is.  Returns the emitted `(j, candidate)` pairs in
order. -/
def fwdSweepAux (ctx : EnumCtx) (j : ℕ) (csg csh : ℚ) : List (ℕ × Entry) :=
  if hj : j < ctx.entries.length then
    let e := ctx.entries.getD j dummySCEntry
    let csg' := csg + ctx.grad e.rindex
    let csh' := csh + ctx.hess e.rindex
    if ctx.validPoint j then
      if csh' < ctx.param.min_child_weight then
        fwdSweepAux ctx (j + 1) csg' csh'
      else if ctx.rsum_hess - csh' < ctx.param.min_child_weight then []
      else (j, ctx.fwdCand j csg' csh') :: fwdSweepAux ctx (j + 1) csg' csh'
    else fwdSweepAux ctx (j + 1) csg' csh'
  else []
termination_by ctx.entries.length - j

/-- The forward sweep runs exactly when `default_direction != 1`. -/
def fwdSweep (ctx : EnumCtx) : List (ℕ × Entry) :=
  if ctx.param.default_direction ≠ 1 then ctx.fwdSweepAux 0 0 0 else []

/-- The candidate the backward sweep pushes at source loop counter `j`
(relative to the slice start, so the examined entry is `entries[j-1]`):
`Entry(loss_chg, j-1, end-j+1, findex, threshold, true)`. -/
def bwdCand (ctx : EnumCtx) (j : ℕ) (csg csh : ℚ) : Entry :=
  Entry.make (ctx.lossOf csg csh) (ctx.start + j - 1) (ctx.entries.length - j + 1)
    ctx.findex
    (if j = 1 then (ctx.entries.getD (j - 1) dummySCEntry).fvalue - rt_eps
      else
        (1 / 2) * ((ctx.entries.getD (j - 2) dummySCEntry).fvalue +
          (ctx.entries.getD (j - 1) dummySCEntry).fvalue))
    true

/-- The backward sweep body (`for j = end; j > start; j--` in the source,
with `j` relative to `start`): symmetric to the forward sweep, the
accumulator covering the right child. -/
def bwdSweepAux (ctx : EnumCtx) (j : ℕ) (csg csh : ℚ) : List (ℕ × Entry) :=
  if 0 < j then
    let e := ctx.entries.getD (j - 1) dummySCEntry
    let csg' := csg + ctx.grad e.rindex
    let csh' := csh + ctx.hess e.rindex
    if j = 1 ∨
        (ctx.entries.getD (j - 2) dummySCEntry).fvalue + rt_2eps < e.fvalue then
      if csh' < ctx.param.min_child_weight then
        bwdSweepAux ctx (j - 1) csg' csh'
      else if ctx.rsum_hess - csh' < ctx.param.min_child_weight then []
      else (j - 1, ctx.bwdCand j csg' csh') :: bwdSweepAux ctx (j - 1) csg' csh'
    else bwdSweepAux ctx (j - 1) csg' csh'
  else []
termination_by j

/-- The backward sweep runs exactly when `default_direction != 2`; the
source starts it at `j = end`. -/
def bwdSweep (ctx : EnumCtx) : List (ℕ × Entry) :=
  if ctx.param.default_direction ≠ 2 then ctx.bwdSweepAux ctx.entries.length 0 0 else []

/-- The final state of the local selecter `slocal`: all forward candidates
are pushed first, then all backward candidates. -/
def localBest (ctx : EnumCtx) : Entry :=
  select ((ctx.fwdSweep).map Prod.snd ++ (ctx.bwdSweep).map Prod.snd)

/-- `RTreeUpdater::enumerate_split`, as its effect on the global selecter:
run both sweeps into a fresh local selecter, and unconditionally
`sglobal.push_back(slocal.select())`. -/
def enumerate_split (ctx : EnumCtx) (sglobal : Entry) : Entry :=
  push_back sglobal ctx.localBest

/-- Accumulated gradient over the first `k` column entries
(the value of `csum_grad` before iteration `k` of the forward sweep). -/
def csumG (ctx : EnumCtx) (k : ℕ) : ℚ :=
  ((ctx.entries.take k).map fun e => ctx.grad e.rindex).sum

/-- Accumulated hessian over the first `k` column entries. -/
def csumH (ctx : EnumCtx) (k : ℕ) : ℚ :=
  ((ctx.entries.take k).map fun e => ctx.hess e.rindex).sum

/-- Condition under which the forward sweep emits a candidate at `j`:
valid split point, left side heavy enough, right side heavy enough. -/
def fwdCond (ctx : EnumCtx) (j : ℕ) : Prop :=
  ctx.validPoint j ∧ ctx.param.min_child_weight ≤ ctx.csumH (j + 1) ∧
    ctx.param.min_child_weight ≤ ctx.rsum_hess - ctx.csumH (j + 1)

instance (ctx : EnumCtx) (j : ℕ) : Decidable (ctx.fwdCond j) := by
  unfold fwdCond
  infer_instance

/-- The candidate the forward sweep emits at `j` in terms of prefix sums. -/
def fwdCandAt (ctx : EnumCtx) (j : ℕ) : Entry :=
  ctx.fwdCand j (ctx.csumG (j + 1)) (ctx.csumH (j + 1))

end EnumCtx

/-! ### The tree storage (modelled from the spec at its interface) -/

/-- Modelled from the spec: the mutable per-node fields of a `TreeModel`
node (`xgboost_tree_model.h`, outside `src/`): leaf/split discriminator,
child ids, decoded split `(feature index, threshold, default_left)`, leaf
weight.  The parent pointer is kept in a separate per-tree list so that
node mutations visibly leave the parent structure unchanged. -/
structure RTreeNodeCore where
  leaf : Bool
  cleft : ℕ
  cright : ℕ
  split_index : ℕ
  split_cond : ℚ
  default_left : Bool
  leaf_value : ℚ
deriving DecidableEq, Repr

/-- Modelled from the spec: `RTreeNodeStat` (this struct itself is in the
source) as carried by the tree storage: `loss_chg`, `base_weight`,
`leaf_child_cnt`. -/
structure RTreeNodeStat where
  loss_chg : ℚ
  base_weight : ℚ
  leaf_child_cnt : ℕ
deriving DecidableEq, Repr

/-- A fresh node: no children assigned yet, treated as a leaf. -/
def defaultNodeCore : RTreeNodeCore :=
  { leaf := true, cleft := 0, cright := 0, split_index := 0, split_cond := 0
    default_left := false, leaf_value := 0 }

def defaultStat : RTreeNodeStat :=
  { loss_chg := 0, base_weight := 0, leaf_child_cnt := 0 }

/-- Modelled from the spec: the tree storage.  `parents` holds each node's
parent pointer (`none` for roots, giving `is_root`); `nodes` the mutable
node fields; `stats` the per-node stat records. -/
structure RTree where
  parents : List (Option ℕ)
  nodes : List RTreeNodeCore
  stats : List RTreeNodeStat

namespace RTree

/-- Node lookup (`tree[i]`). -/
def node (t : RTree) (i : ℕ) : RTreeNodeCore :=
  t.nodes.getD i defaultNodeCore

/-- Stat lookup (`tree.stat(i)`). -/
def stat (t : RTree) (i : ℕ) : RTreeNodeStat :=
  t.stats.getD i defaultStat

/-- `tree.ChangeToLeaf(nid, value)`: replace the node's split with a leaf
of the given weight. -/
def ChangeToLeaf (t : RTree) (nid : ℕ) (v : ℚ) : RTree :=
  { t with nodes := t.nodes.set nid { t.node nid with leaf := true, leaf_value := v } }

/-- `tree[nid].set_leaf(value)`. -/
def set_leaf (t : RTree) (nid : ℕ) (v : ℚ) : RTree :=
  { t with nodes := t.nodes.set nid { t.node nid with leaf := true, leaf_value := v } }

/-- `tree[nid].set_split(split_index, split_value, default_left)`. -/
def set_split (t : RTree) (nid : ℕ) (si : ℕ) (sv : ℚ) (dl : Bool) : RTree :=
  { t with nodes := t.nodes.set nid { t.node nid with
      leaf := false, split_index := si, split_cond := sv, default_left := dl } }

/-- Overwrite the stat record of a node. -/
def setStat (t : RTree) (nid : ℕ) (s : RTreeNodeStat) : RTree :=
  { t with stats := t.stats.set nid s }

/-- `tree.AddChilds(nid)`: append two fresh child nodes and point the
parent's `cleft`/`cright` at them. -/
def AddChilds (t : RTree) (nid : ℕ) : RTree :=
  let l := t.nodes.length
  { parents := t.parents ++ [some nid, some nid]
    nodes := (t.nodes.set nid { t.node nid with cleft := l, cright := l + 1 }) ++
      [defaultNodeCore, defaultNodeCore]
    stats := t.stats ++ [defaultStat, defaultStat] }

/-- Depth of a node by walking parent pointers; the fuel `nid + 1` is
exact on parent-decreasing trees, where a node's depth is at most its id. -/
def GetDepthAux (t : RTree) : ℕ → ℕ → ℕ
  | 0, _ => 0
  | fuel + 1, nid =>
    match t.parents.getD nid none with
    | none => 0
    | some p => GetDepthAux t fuel p + 1

/-- `tree.GetDepth(nid)` modelled from the spec. -/
def GetDepth (t : RTree) (nid : ℕ) : ℕ :=
  GetDepthAux t (nid + 1) nid

/-- Well-formedness: every parent pointer goes to a smaller node id (the
source allocates children after their parent with `AddChilds`). -/
def ParentLt (t : RTree) : Prop :=
  ((List.range t.parents.length).all fun i =>
    match t.parents.getD i none with
    | none => true
    | some p => decide (p < i)) = true

instance (t : RTree) : Decidable (t.ParentLt) := by
  unfold ParentLt
  infer_instance

/-- Well-formedness used by prediction: every internal node's children have
larger ids than the node and stay in range. -/
def ChildGt (t : RTree) : Prop :=
  ((List.range t.nodes.length).all fun i =>
    (t.node i).leaf ||
      (decide (i < (t.node i).cleft) && decide ((t.node i).cleft < t.nodes.length) &&
       decide (i < (t.node i).cright) && decide ((t.node i).cright < t.nodes.length))) = true

instance (t : RTree) : Decidable (t.ChildGt) := by
  unfold ChildGt
  infer_instance

end RTree

/-! ### The pruner (`RTreeUpdater::try_prune_leaf`) -/

/-- `RTreeUpdater::try_prune_leaf(nid, depth)`: if `nid` is a root stop;
else bump the parent's `leaf_child_cnt`; if both children are now leaves
and `need_prune(stat(pid).loss_chg, depth - 1)` holds, turn the parent
into a leaf with `learning_rate * base_weight`, add 2 to the pruned-node
count, and recurse on the parent.  Returns the updated tree and the number
of nodes pruned.  The `ParentLt` hypothesis makes the source's tail
recursion well-founded (it strictly ascends toward a root). -/
def try_prune_leaf (p : TreeParamTrain) (t : RTree) (h : t.ParentLt)
    (nid : ℕ) (depth : ℤ) : RTree × ℕ :=
  match hpar : t.parents.getD nid none with
  | none => (t, 0)
  | some pid =>
    let s0 := t.stat pid
    let s1 := { s0 with leaf_child_cnt := s0.leaf_child_cnt + 1 }
    let t1 := t.setStat pid s1
    if 2 ≤ s1.leaf_child_cnt ∧ p.need_prune s1.loss_chg (depth - 1) = true then
      let t2 := t1.ChangeToLeaf pid (p.learning_rate * s1.base_weight)
      let r := try_prune_leaf p t2 h pid (depth - 1)
      (r.1, r.2 + 2)
    else (t1, 0)
termination_by nid
decreasing_by
  have hlen : nid < t.parents.length := by
    by_contra hge
    rw [List.getD_eq_default _ _ (by omega)] at hpar
    exact Option.noConfusion hpar
  have hall := List.all_eq_true.mp h nid (List.mem_range.mpr hlen)
  rw [hpar] at hall
  exact of_decide_eq_true hall

/-! ### Leaf creation (`RTreeUpdater::make_leaf`) -/

/-- The updater's read-only inputs: parameters, gradients, hessians, and
the sparse matrix (`smat[ridx]` gives the row's `(findex, fvalue)` list). -/
structure UpdCtx where
  param : TreeParamTrain
  grad : ℕ → ℚ
  hess : ℕ → ℚ
  smat : ℕ → List (ℕ × ℚ)

/-- `RTreeUpdater::Task`: target node id, owned idset slice (as the list of
ids it contains), parent's base weight. -/
structure Task where
  nid : ℕ
  idset : List ℕ
  parent_base_weight : ℚ
deriving DecidableEq, Repr

/-- `RTreeUpdater::make_leaf(tsk, sum_grad, sum_hess, compute)`: optionally
accumulate the task's gradient/hessian sums, install the leaf with
`learning_rate * CalcWeight(sum_grad, sum_hess, parent_base_weight)`, then
run the pruner upward from the node at its depth.  Returns the updated
tree and the pruned-node count. -/
def make_leaf (u : UpdCtx) (t : RTree) (h : t.ParentLt) (tsk : Task)
    (sum_grad sum_hess : ℚ) (compute : Bool) : RTree × ℕ :=
  let sg := if compute then sum_grad + (tsk.idset.map u.grad).sum else sum_grad
  let sh := if compute then sum_hess + (tsk.idset.map u.hess).sum else sum_hess
  let t1 := t.set_leaf tsk.nid
    (u.param.learning_rate * u.param.CalcWeight sg sh tsk.parent_base_weight)
  try_prune_leaf u.param t1 h tsk.nid (t.GetDepth tsk.nid)

/-! ### The split partition (`RTreeUpdater::make_split`) -/

/-- The in-place merge-sort-style removal loop of `make_split`, verbatim:
walk `i` over the idset buffer; when the current element matches `qset[top]`
advance `top`, otherwise copy it `top` slots leftward (`qset.size()` slots
once `qset` is exhausted). -/
def msLoop (q : List ℕ) (buf : List ℕ) (i top : ℕ) : List ℕ :=
  if i < buf.length then
    if top < q.length then
      if buf.getD i 0 ≠ q.getD top 0 then
        msLoop q (buf.set (i - top) (buf.getD i 0)) (i + 1) top
      else msLoop q buf (i + 1) (top + 1)
    else msLoop q (buf.set (i - q.length) (buf.getD i 0)) (i + 1) top
  else buf
termination_by buf.length - i
decreasing_by
  all_goals first
  | (simp only [List.length_set]; omega)
  | omega

/-- The functional residue of `msLoop`: the elements kept (copied leftward)
when cancelling the matchable ids of `q` in order. -/
def keptOf : List ℕ → List ℕ → List ℕ
  | [], _ => []
  | x :: xs, [] => x :: keptOf xs []
  | x :: xs, y :: ys => if x = y then keptOf xs ys else x :: keptOf xs (y :: ys)

/-- The qset of `make_split`: the row indices of the chosen entry slice,
sorted ascending (`std::sort`). -/
def qsetOf (entries : List SCEntry) : List ℕ :=
  (entries.map SCEntry.rindex).mergeSort (· ≤ ·)

/-- `RTreeUpdater::make_split(tsk, entry, num, loss_chg, base_weight)`:
write the node stat, allocate children, partition the idset slice in place
(default side first, then the qset filled back), and emit the two child
tasks — the default side to the default child, the qset side to the other,
pushed default-then-split.  Returns the updated tree and the two tasks. -/
def make_split (t : RTree) (tsk : Task)
    (entries : List SCEntry) (loss_chg : ℚ) (base_weight : ℚ) :
    RTree × Task × Task :=
  let t1 := t.setStat tsk.nid
    { loss_chg := loss_chg, base_weight := base_weight, leaf_child_cnt := 0 }
  let t2 := t1.AddChilds tsk.nid
  let qset := qsetOf entries
  let buf := msLoop qset tsk.idset 0 0
  let n := t2.node tsk.nid
  let def_part : Task :=
    { nid := if n.default_left then n.cleft else n.cright
      idset := buf.take (tsk.idset.length - qset.length)
      parent_base_weight := base_weight }
  let spl_part : Task :=
    { nid := if n.default_left then n.cright else n.cleft
      idset := qset
      parent_base_weight := base_weight }
  (t2, def_part, spl_part)

/-! ### The node expander (`RTreeUpdater::expand`) -/

/-- Modelled from the spec: the active-column list of the CSR builder
(`xgboost_matrix_csr.h`, outside `src/`) — the features touched by at
least one row of the idset, in order of first touch. -/
def activeFeats (u : UpdCtx) (idset : List ℕ) : List ℕ :=
  (idset.flatMap fun r => (u.smat r).map Prod.fst).foldl
    (fun acc f => if f ∈ acc then acc else acc ++ [f]) []

/-- Modelled from the spec: the column of feature `f` built by the CSR
builder — one `(fvalue, ridx)` entry per occurrence of `f` in a row of the
idset — then sorted ascending by `fvalue` (the `std::sort` on the column
slice). -/
def columnOf (u : UpdCtx) (idset : List ℕ) (f : ℕ) : List SCEntry :=
  ((idset.flatMap fun r =>
      ((u.smat r).filter fun e => e.1 = f).map fun e => SCEntry.mk e.2 r).mergeSort
    fun a b => a.fvalue ≤ b.fvalue)

/-- The per-task root statistics `rsum_grad`. -/
def rsumG (u : UpdCtx) (idset : List ℕ) : ℚ := (idset.map u.grad).sum

/-- The per-task root statistics `rsum_hess`. -/
def rsumH (u : UpdCtx) (idset : List ℕ) : ℚ := (idset.map u.hess).sum

/-- The per-feature enumeration loop of `expand`: fold `enumerate_split`
over the active features, threading the global selecter and the running
offset into the concatenated column-major entry buffer; also returns that
buffer. -/
def enumAll (u : UpdCtx) (tsk : Task) (rg rh rc bw : ℚ) :
    Entry × ℕ × List SCEntry :=
  (activeFeats u tsk.idset).foldl
    (fun acc f =>
      let col := columnOf u tsk.idset f
      (EnumCtx.enumerate_split
          { param := u.param, grad := u.grad, hess := u.hess, rsum_grad := rg
            rsum_hess := rh, root_cost := rc, parent_base_weight := bw
            entries := col, start := acc.2.1, findex := f } acc.1,
        acc.2.1 + col.length, acc.2.2 ++ col))
    (zeroEntry, 0, [])

/-- `RTreeUpdater::expand(tsk)`: depth gate, root statistics,
`cannot_split` gate, per-feature enumeration, then either install the best
split and partition the idset (pushing the two child tasks,
default-then-split) or install a leaf.  Returns the updated tree, the
pushed tasks, and the pruned-node count. -/
def expand (u : UpdCtx) (t : RTree) (h : t.ParentLt) (tsk : Task) :
    RTree × List Task × ℕ :=
  let depth := t.GetDepth tsk.nid
  if u.param.max_depth ≤ depth then
    let r := make_leaf u t h tsk 0 0 true
    (r.1, [], r.2)
  else
    let rg := rsumG u tsk.idset
    let rh := rsumH u tsk.idset
    if u.param.cannot_split rh depth then
      let r := make_leaf u t h tsk rg rh false
      (r.1, [], r.2)
    else
      let rc := u.param.CalcRootCost rg rh
      let bw := u.param.CalcWeight rg rh tsk.parent_base_weight
      let eb := enumAll u tsk rg rh rc bw
      let e := eb.1
      if rt_eps < e.loss_chg then
        let t1 := t.set_split tsk.nid e.split_index e.split_value e.default_left
        let r := make_split t1 tsk ((eb.2.2.drop e.start).take e.len)
          e.loss_chg bw
        (r.1, [r.2.1, r.2.2], 0)
      else
        let r := make_leaf u t h tsk rg rh false
        (r.1, [], r.2)

/-! ### Root initialization (`RTreeUpdater::init_tasks`, single-root) -/

/-- The single-root branch of `init_tasks` (empty `group_id`), with
`random::SampleBinary` (declared in `xgboost_random.h`, outside `src/`)
modelled from the spec as an oracle: `rng i` is the outcome of the
Bernoulli draw made at loop index `i`.  Full-sample mode keeps every row
with `hess[i] >= 0`; subsample mode keeps every row the RNG accepts —
faithfully to the source, which does *not* test `hess` in that branch. -/
def init_idset_single (p : TreeParamTrain) (hess : List ℚ) (rng : ℕ → Bool) :
    List ℕ :=
  if p.subsample > 1 - 1 / 1000000 then
    (List.range hess.length).filter fun i => !decide (hess.getD i 0 < 0)
  else
    (List.range hess.length).filter fun i => rng i

/-! ### The prediction path (`RTreeTrainer`) -/

/-- `RTreeTrainer::get_next(pid, fvalue, is_unknown)`: follow the default
direction on unknown features, otherwise compare `fvalue < split_value`. -/
def get_next (t : RTree) (pid : ℕ) (fvalue : ℚ) (is_unknown : Bool) : ℕ :=
  if is_unknown then
    if (t.node pid).default_left then (t.node pid).cleft else (t.node pid).cright
  else
    if fvalue < (t.node pid).split_cond then (t.node pid).cleft
    else (t.node pid).cright

/-- `RTreeTrainer::GetLeafIndex(feat, funknown, gid)`: walk from the root
node `gid` by `get_next` until a leaf is reached.  The `ChildGt`
hypothesis makes the source's `while` loop well-founded. -/
def GetLeafIndex (t : RTree) (h : t.ChildGt) (feat : ℕ → ℚ)
    (funknown : ℕ → Bool) (pid : ℕ) : ℕ :=
  if _hl : (t.node pid).leaf = true then pid
  else
    GetLeafIndex t h feat funknown
      (get_next t pid (feat (t.node pid).split_index)
        (funknown (t.node pid).split_index))
termination_by t.nodes.length - pid
decreasing_by
  have hpid : pid < t.nodes.length := by
    by_contra hge
    have hd : t.node pid = defaultNodeCore := by
      unfold RTree.node
      rw [List.getD_eq_default _ _ (by omega)]
    rw [hd] at _hl
    exact _hl rfl
  have hall := List.all_eq_true.mp h pid (List.mem_range.mpr hpid)
  rw [Bool.eq_false_iff.mpr _hl] at hall
  simp only [Bool.false_or, Bool.and_eq_true, decide_eq_true_eq] at hall
  have hnext : pid < get_next t pid (feat (t.node pid).split_index)
        (funknown (t.node pid).split_index) ∧
      get_next t pid (feat (t.node pid).split_index)
        (funknown (t.node pid).split_index) < t.nodes.length := by
    unfold get_next
    split_ifs <;> exact ⟨by omega, by omega⟩
  omega

/-- `RTreeTrainer::Predict(feat, funknown, gid)` (dense): the leaf weight
at the reached leaf. -/
def Predict (t : RTree) (h : t.ChildGt) (feat : ℕ → ℚ) (funknown : ℕ → Bool)
    (gid : ℕ) : ℚ :=
  (t.node (GetLeafIndex t h feat funknown gid)).leaf_value

/-- The trainer's reusable dense scratch: `tmp_feat` and `tmp_funknown`. -/
structure PredState where
  tmp_feat : List ℚ
  tmp_funknown : List Bool
deriving DecidableEq, Repr

/-- `RTreeTrainer::init_tmpfeat()`: on size mismatch resize both scratch
vectors to `num_feature` (`std::vector::resize` keeps the prefix and
value-initializes new slots) and fill the unknown mask with `true`. -/
def init_tmpfeat (num_feature : ℕ) (st : PredState) : PredState :=
  if st.tmp_feat.length ≠ num_feature then
    { tmp_feat := st.tmp_feat.take num_feature ++
        List.replicate (num_feature - st.tmp_feat.length) 0
      tmp_funknown := List.replicate num_feature true }
  else st

/-- `RTreeTrainer::Predict(feat, gid)` (sparse row): fill the dense scratch
and unknown mask from the row, walk the tree, then set the mask back to
`true` on the row's indices.  Returns the leaf weight and the scratch
state after the call. -/
def Predict_sparse (t : RTree) (h : t.ChildGt) (num_feature : ℕ)
    (st : PredState) (row : List (ℕ × ℚ)) (gid : ℕ) : ℚ × PredState :=
  let st0 := init_tmpfeat num_feature st
  let feat1 := row.foldl (fun f e => f.set e.1 e.2) st0.tmp_feat
  let unk1 := row.foldl (fun m e => m.set e.1 false) st0.tmp_funknown
  let pid := GetLeafIndex t h (fun i => feat1.getD i 0) (fun i => unk1.getD i true) gid
  let unk2 := row.foldl (fun m e => m.set e.1 true) unk1
  ((t.node pid).leaf_value, { tmp_feat := feat1, tmp_funknown := unk2 })

/-! ### Concrete fixtures used by witnesses -/

/-- A concrete realization of the parameter object, used only to witness
that the hypotheses of the theorems below are satisfiable. -/
def paramW : TreeParamTrain :=
  { learning_rate := 3 / 10
    min_child_weight := 1
    subsample := 1 / 2
    default_direction := 0
    max_depth := 6
    CalcWeight := fun g h _ => -g / (h + 1)
    CalcCost := fun g h _ => g * g / (h + 1)
    CalcRootCost := fun g h => g * g / (h + 1)
    need_prune := fun lc _ => decide (lc < 1)
    cannot_split := fun h _ => decide (h < 1 / 2) }

/-- A concrete enumerator call on a two-entry column. -/
def ctxW4 : EnumCtx :=
  { param := paramW
    grad := fun i => if i = 0 then 1 else -1
    hess := fun _ => 1
    rsum_grad := 0
    rsum_hess := 2
    root_cost := 0
    parent_base_weight := 0
    entries := [⟨1, 0⟩, ⟨2, 1⟩]
    start := 0
    findex := 0 }

/-- A concrete enumerator call on an empty column slice. -/
def ctxW10 : EnumCtx :=
  { ctxW4 with entries := [] }

/-- A concrete task targeting node 0 with a three-row idset. -/
def taskW : Task :=
  { nid := 0, idset := [0, 1, 2], parent_base_weight := 0 }

/-- A concrete chosen entry slice: one entry for row 2. -/
def entriesW : List SCEntry := [⟨1, 2⟩]

/-- A concrete three-node tree: a root split with two leaf children. -/
def treeW : RTree :=
  { parents := [none, some 0, some 0]
    nodes := [{ leaf := false, cleft := 1, cright := 2, split_index := 0,
                split_cond := 1, default_left := false, leaf_value := 0 },
              defaultNodeCore, defaultNodeCore]
    stats := [{ loss_chg := 1 / 2, base_weight := 2, leaf_child_cnt := 1 },
              defaultStat, defaultStat] }

/-- A fresh one-node tree (a single root). -/
def treeW2 : RTree :=
  { parents := [none], nodes := [defaultNodeCore], stats := [defaultStat] }

/-- An updater context whose sparse matrix has no features at all. -/
def uW2 : UpdCtx :=
  { param := paramW
    grad := fun _ => 2
    hess := fun _ => 3
    smat := fun _ => [] }

/-- A one-row task at the fresh root. -/
def taskW2 : Task :=
  { nid := 0, idset := [0], parent_base_weight := 0 }

end XgbSvdf

namespace XgbSvdf

open RTSelecter

/-! ### Theorems about the selecter (`C6`, `C7`) -/

/-- Helper: the best entry's gain is an upper bound of the pushed gains and
of the initial gain. -/
theorem foldl_push_back_ge (init : Entry) (l : List Entry) :
    init.loss_chg ≤ (l.foldl push_back init).loss_chg ∧
      ∀ c ∈ l, c.loss_chg ≤ (l.foldl push_back init).loss_chg := by
  induction l generalizing init with
  | nil => exact ⟨le_refl _, by simp⟩
  | cons a t ih =>
    simp only [List.foldl_cons]
    have h := ih (push_back init a)
    constructor
    · refine le_trans ?_ h.1
      unfold push_back
      split <;> [exact le_of_lt (by assumption); exact le_refl _]
    · intro c hc
      rcases List.mem_cons.mp hc with rfl | hct
      · refine le_trans ?_ h.1
        unfold push_back
        split <;> [exact le_refl _; exact not_lt.mp (by assumption)]
      · exact h.2 c hct

/-- Helper: the best entry is either the initial entry or one of the pushed
candidates. -/
theorem foldl_push_back_mem (init : Entry) (l : List Entry) :
    l.foldl push_back init = init ∨ l.foldl push_back init ∈ l := by
  induction l generalizing init with
  | nil => exact Or.inl rfl
  | cons a t ih =>
    simp only [List.foldl_cons]
    rcases ih (push_back init a) with h | h
    · rw [h]
      unfold push_back
      split
      · exact Or.inr (List.mem_cons_self a t)
      · exact Or.inl rfl
    · exact Or.inr (List.mem_cons_of_mem a h)

/-- Helper: full characterization of the fold of `push_back`: either nothing
beat the initial entry, or the result is the first pushed candidate whose
gain strictly exceeds the initial gain and every earlier gain, and which no
later candidate strictly exceeds. -/
theorem foldl_push_back_spec (init : Entry) (l : List Entry) :
    (l.foldl push_back init = init ∧ ∀ c ∈ l, c.loss_chg ≤ init.loss_chg) ∨
      (∃ i, ∃ hi : i < l.length,
        l.foldl push_back init = l.get ⟨i, hi⟩ ∧
        init.loss_chg < (l.get ⟨i, hi⟩).loss_chg ∧
        (∀ c ∈ l.take i, c.loss_chg < (l.get ⟨i, hi⟩).loss_chg) ∧
        (∀ c ∈ l, c.loss_chg ≤ (l.get ⟨i, hi⟩).loss_chg)) := by
  induction l generalizing init with
  | nil => exact Or.inl ⟨rfl, by simp⟩
  | cons a t ih =>
    simp only [List.foldl_cons]
    by_cases ha : a.loss_chg > init.loss_chg
    · have hpa : push_back init a = a := by unfold push_back; simp [ha]
      rw [hpa]
      rcases ih a with ⟨hres, hall⟩ | ⟨i, hi, hres, hgt, hbefore, hall⟩
      · refine Or.inr ⟨0, by simp, ?_, ?_, ?_, ?_⟩
        · simpa using hres
        · simpa using ha
        · simp
        · intro c hc
          rcases List.mem_cons.mp hc with rfl | hct
          · simp
          · simpa using hall c hct
      · refine Or.inr ⟨i + 1, by simpa using hi, ?_, ?_, ?_, ?_⟩
        · simpa using hres
        · exact lt_trans ha (by simpa using hgt)
        · intro c hc
          rw [List.take_succ_cons] at hc
          rcases List.mem_cons.mp hc with rfl | hct
          · simpa using hgt
          · simpa using hbefore c hct
        · intro c hc
          rcases List.mem_cons.mp hc with rfl | hct
          · exact le_of_lt (by simpa using hgt)
          · simpa using hall c hct
    · have hpa : push_back init a = init := by unfold push_back; simp [ha]
      rw [hpa]
      rcases ih init with ⟨hres, hall⟩ | ⟨i, hi, hres, hgt, hbefore, hall⟩
      · refine Or.inl ⟨hres, ?_⟩
        intro c hc
        rcases List.mem_cons.mp hc with rfl | hct
        · exact not_lt.mp ha
        · exact hall c hct
      · refine Or.inr ⟨i + 1, by simpa using hi, ?_, ?_, ?_, ?_⟩
        · simpa using hres
        · simpa using hgt
        · intro c hc
          rw [List.take_succ_cons] at hc
          rcases List.mem_cons.mp hc with rfl | hct
          · exact lt_of_le_of_lt (not_lt.mp ha) (by simpa using hgt)
          · simpa using hbefore c hct
        · intro c hc
          rcases List.mem_cons.mp hc with rfl | hct
          · exact le_of_lt (lt_of_le_of_lt (not_lt.mp ha) (by simpa using hgt))
          · simpa using hall c hct

/-- C6: round-trip of the split-index encoding.  For every feature index
`f < 2^31` and every `default_left` flag, the selecter `Entry` built by the
source constructor decodes back to exactly `(f, default_left)`:
`split_index()` masks with `(1<<31) - 1` and `default_left()` reads bit 31. -/
theorem C6_split_index_roundtrip (f : ℕ) (hf : f < 2 ^ 31) (dl : Bool)
    (lc sv : ℚ) (s len : ℕ) :
    (Entry.make lc s len f sv dl).split_index = f ∧
      (Entry.make lc s len f sv dl).default_left = dl := by
  have hshift : (1 <<< 31 : ℕ) = 2 ^ 31 := by decide
  cases dl with
  | false =>
    constructor
    · show (f &&& (1 <<< 31 - 1)) = f
      rw [hshift, Nat.and_pow_two_sub_one_eq_mod, Nat.mod_eq_of_lt hf]
    · show ((f >>> 31 : ℕ) != 0) = false
      rw [Nat.shiftRight_eq_div_pow, Nat.div_eq_of_lt hf]
      rfl
  | true =>
    constructor
    · show ((f ||| 1 <<< 31) &&& (1 <<< 31 - 1)) = f
      rw [hshift, Nat.and_pow_two_sub_one_eq_mod]
      apply Nat.eq_of_testBit_eq
      intro i
      rw [Nat.testBit_mod_two_pow, Nat.testBit_lor]
      by_cases hi : i < 31
      · simp [Nat.testBit_two_pow_of_ne (by omega : 31 ≠ i), hi]
      · have hpow : (2 : ℕ) ^ 31 ≤ 2 ^ i := Nat.pow_le_pow_right (by norm_num) (by omega)
        have hfi : f.testBit i = false :=
          Nat.testBit_eq_false_of_lt (lt_of_lt_of_le hf hpow)
        simp [hi, hfi]
    · show (((f ||| 1 <<< 31) >>> 31 : ℕ) != 0) = true
      rw [hshift]
      have hbit : (f ||| 2 ^ 31).testBit 31 = true := by
        rw [Nat.testBit_lor]
        exact Bool.or_eq_true_iff.mpr (Or.inr (by decide))
      have hge : 2 ^ 31 ≤ f ||| 2 ^ 31 := by
        by_contra hlt
        rw [Nat.testBit_eq_false_of_lt (by omega)] at hbit
        exact Bool.false_ne_true hbit
      have hne : (f ||| 2 ^ 31) >>> 31 ≠ 0 := by
        rw [Nat.shiftRight_eq_div_pow]
        have h2 : 1 ≤ (f ||| 2 ^ 31) / 2 ^ 31 :=
          (Nat.one_le_div_iff (by norm_num)).mpr hge
        omega
      simpa using hne

/-- C6 witness: a concrete round trip at `f = 5`, `default_left = true`. -/
theorem C6_split_index_roundtrip_witness :
    (Entry.make 1 0 0 5 0 true).split_index = 5 ∧
      (Entry.make 1 0 0 5 0 true).default_left = true :=
  C6_split_index_roundtrip 5 (by norm_num) true 1 0 0 0

/-- C7: for every sequence of candidates pushed into an `RTSelecter`,
`select()` returns the first-pushed candidate among those with maximal
`loss_chg` (strict `>` comparison keeps the earlier candidate on ties),
and if no pushed candidate has positive `loss_chg` the zero-initialized
initial entry is returned, so a candidate with non-positive `loss_chg` is
never selected. -/
theorem C7_selecter_first_max (l : List Entry) :
    ((∀ c ∈ l, c.loss_chg ≤ 0) → select l = zeroEntry) ∧
      ((∃ c ∈ l, 0 < c.loss_chg) →
        ∃ i, ∃ hi : i < l.length,
          select l = l.get ⟨i, hi⟩ ∧
          0 < (l.get ⟨i, hi⟩).loss_chg ∧
          (∀ c ∈ l.take i, c.loss_chg < (l.get ⟨i, hi⟩).loss_chg) ∧
          (∀ c ∈ l, c.loss_chg ≤ (l.get ⟨i, hi⟩).loss_chg)) := by
  constructor
  · intro hall
    rcases foldl_push_back_spec zeroEntry l with ⟨hres, _⟩ | ⟨i, hi, _, hgt, _, _⟩
    · exact hres
    · exact absurd (lt_of_lt_of_le hgt (hall _ (l.get_mem i hi))) (by simp [zeroEntry])
  · rintro ⟨c, hc, hcpos⟩
    rcases foldl_push_back_spec zeroEntry l with ⟨_, hall⟩ | ⟨i, hi, hres, hgt, hbefore, hall⟩
    · exact absurd (lt_of_lt_of_le hcpos (hall c hc)) (by simp [zeroEntry])
    · exact ⟨i, hi, hres, by simpa [zeroEntry] using hgt, hbefore, hall⟩

/-- C7 witness: pushing a single candidate with negative gain keeps the
zero-initialized entry. -/
theorem C7_selecter_first_max_witness :
    select [Entry.mk (-1) 0 0 0 0] = zeroEntry :=
  (C7_selecter_first_max [Entry.mk (-1) 0 0 0 0]).1 (by
    intro c hc
    rw [List.mem_singleton] at hc
    rw [hc]
    norm_num)

/-! ### Theorems about the enumerator -/

namespace EnumCtx

theorem csumG_succ (ctx : EnumCtx) {j : ℕ} (hj : j < ctx.entries.length) :
    ctx.csumG (j + 1) =
      ctx.csumG j + ctx.grad (ctx.entries.getD j dummySCEntry).rindex := by
  unfold csumG
  rw [List.getD_eq_getElem ctx.entries dummySCEntry hj]
  simp only [List.map_take]
  rw [List.sum_take_succ _ j (by simpa using hj)]
  simp

theorem csumH_succ (ctx : EnumCtx) {j : ℕ} (hj : j < ctx.entries.length) :
    ctx.csumH (j + 1) =
      ctx.csumH j + ctx.hess (ctx.entries.getD j dummySCEntry).rindex := by
  unfold csumH
  rw [List.getD_eq_getElem ctx.entries dummySCEntry hj]
  simp only [List.map_take]
  rw [List.sum_take_succ _ j (by simpa using hj)]
  simp

/-- With nonnegative hessians the accumulated hessian is monotone in the
sweep position (the spec's "monotone in j" rationale for the `break`). -/
theorem csumH_mono (ctx : EnumCtx)
    (hh : ∀ e ∈ ctx.entries, 0 ≤ ctx.hess e.rindex) :
    ∀ k k', k ≤ k' → ctx.csumH k ≤ ctx.csumH k' := by
  intro k k' hk
  induction k' with
  | zero =>
    have hz : k = 0 := Nat.le_zero.mp hk
    rw [hz]
  | succ m ih =>
    rcases eq_or_lt_of_le hk with rfl | hlt
    · exact le_refl _
    · have hkm : k ≤ m := Nat.lt_succ_iff.mp hlt
      by_cases hm : m < ctx.entries.length
      · refine le_trans (ih hkm) ?_
        rw [ctx.csumH_succ hm]
        have hmem : (ctx.entries.getD m dummySCEntry) ∈ ctx.entries := by
          rw [List.getD_eq_getElem ctx.entries dummySCEntry hm]
          exact List.getElem_mem hm
        linarith [hh _ hmem]
      · have hle : ctx.entries.length ≤ m := le_of_not_lt hm
        have heq : ctx.csumH (m + 1) = ctx.csumH m := by
          unfold csumH
          rw [List.take_of_length_le hle,
            List.take_of_length_le (le_trans hle (Nat.le_succ m))]
        rw [heq]
        exact ih hkm

/-- One unfolding of the forward sweep loop at an in-range position. -/
theorem fwdSweepAux_unfold (ctx : EnumCtx) (j : ℕ) (csg csh : ℚ)
    (hj : j < ctx.entries.length) :
    ctx.fwdSweepAux j csg csh =
      (if ctx.validPoint j then
        if csh + ctx.hess (ctx.entries.getD j dummySCEntry).rindex <
            ctx.param.min_child_weight then
          ctx.fwdSweepAux (j + 1)
            (csg + ctx.grad (ctx.entries.getD j dummySCEntry).rindex)
            (csh + ctx.hess (ctx.entries.getD j dummySCEntry).rindex)
        else if ctx.rsum_hess -
            (csh + ctx.hess (ctx.entries.getD j dummySCEntry).rindex) <
            ctx.param.min_child_weight then []
        else (j, ctx.fwdCand j
            (csg + ctx.grad (ctx.entries.getD j dummySCEntry).rindex)
            (csh + ctx.hess (ctx.entries.getD j dummySCEntry).rindex)) ::
          ctx.fwdSweepAux (j + 1)
            (csg + ctx.grad (ctx.entries.getD j dummySCEntry).rindex)
            (csh + ctx.hess (ctx.entries.getD j dummySCEntry).rindex)
      else
        ctx.fwdSweepAux (j + 1)
          (csg + ctx.grad (ctx.entries.getD j dummySCEntry).rindex)
          (csh + ctx.hess (ctx.entries.getD j dummySCEntry).rindex)) := by
  rw [fwdSweepAux.eq_def]
  rw [dif_pos hj]

/-- Full characterization of the forward sweep loop started at `j0` with
accumulators equal to the prefix sums before `j0`, assuming nonnegative
hessians: a pair `(j, e)` is emitted exactly when `j` lies in the remaining
range, the emission condition holds at `j`, and `e` is the candidate built
from the prefix sums at `j`. -/
theorem fwdSweepAux_spec (ctx : EnumCtx)
    (hh : ∀ e ∈ ctx.entries, 0 ≤ ctx.hess e.rindex) :
    ∀ n j0, ctx.entries.length - j0 = n → ∀ j e,
      ((j, e) ∈ ctx.fwdSweepAux j0 (ctx.csumG j0) (ctx.csumH j0)) ↔
        (j0 ≤ j ∧ j < ctx.entries.length ∧ ctx.fwdCond j ∧
          e = ctx.fwdCandAt j) := by
  intro n
  induction n with
  | zero =>
    intro j0 hn j e
    rw [fwdSweepAux.eq_def, dif_neg (by omega)]
    simp only [List.not_mem_nil, false_iff]
    rintro ⟨h1, h2, -, -⟩
    omega
  | succ m ih =>
    intro j0 hn j e
    have hj0 : j0 < ctx.entries.length := by omega
    rw [ctx.fwdSweepAux_unfold j0 _ _ hj0, ← ctx.csumG_succ hj0, ← ctx.csumH_succ hj0]
    have ihn := ih (j0 + 1) (by omega) j e
    by_cases hv : ctx.validPoint j0
    · rw [if_pos hv]
      by_cases h1 : ctx.csumH (j0 + 1) < ctx.param.min_child_weight
      · rw [if_pos h1, ihn]
        constructor
        · rintro ⟨ha, hb, hc, hd⟩
          exact ⟨by omega, hb, hc, hd⟩
        · rintro ⟨ha, hb, hc, hd⟩
          refine ⟨?_, hb, hc, hd⟩
          rcases Nat.eq_or_lt_of_le ha with rfl | h
          · exact absurd hc.2.1 (not_le.mpr h1)
          · omega
      · rw [if_neg h1]
        by_cases h2 : ctx.rsum_hess - ctx.csumH (j0 + 1) < ctx.param.min_child_weight
        · rw [if_pos h2]
          simp only [List.not_mem_nil, false_iff]
          rintro ⟨ha, hb, hc, -⟩
          have hmono := ctx.csumH_mono hh (j0 + 1) (j + 1) (by omega)
          have h3 := hc.2.2
          linarith
        · rw [if_neg h2, List.mem_cons, ihn]
          constructor
          · rintro (hpair | ⟨ha, hb, hc, hd⟩)
            · rw [Prod.mk.injEq] at hpair
              obtain ⟨rfl, rfl⟩ := hpair
              exact ⟨le_refl _, hj0, ⟨hv, not_lt.mp h1, not_lt.mp h2⟩, rfl⟩
            · exact ⟨by omega, hb, hc, hd⟩
          · rintro ⟨ha, hb, hc, hd⟩
            rcases Nat.eq_or_lt_of_le ha with rfl | h
            · left
              rw [hd]
              rfl
            · right
              exact ⟨by omega, hb, hc, hd⟩
    · rw [if_neg hv, ihn]
      constructor
      · rintro ⟨ha, hb, hc, hd⟩
        exact ⟨by omega, hb, hc, hd⟩
      · rintro ⟨ha, hb, hc, hd⟩
        refine ⟨?_, hb, hc, hd⟩
        rcases Nat.eq_or_lt_of_le ha with rfl | h
        · exact absurd hc.1 hv
        · omega

end EnumCtx

/-- C4: characterization of the forward sweep of `enumerate_split` (run
whenever `default_direction != 1`) over a feature column sorted ascending
by `fvalue`, with nonnegative hessians (the monotonicity the spec's own
"monotone in j" rationale relies on): a candidate is emitted at position
`j` exactly when `j` is a valid split point (`j` last, or
`fvalue[j] + 2e-5 < fvalue[j+1]`) and both `csum_hess` and
`rsum_hess - csum_hess` reach `min_child_weight`; the `break` can drop no
such position.  Every emitted candidate carries the gain at `j`, covers the
left slice `(start, j+1-start)`, has threshold
`0.5*(fvalue[j]+fvalue[j+1])` at interior positions and `fvalue[j] + 1e-5`
at the last index, and has `default_left = false` — as recorded in
`fwdCandAt`. -/
theorem C4_forward_sweep (ctx : EnumCtx)
    (hdd : ctx.param.default_direction ≠ 1)
    (_hsorted : ctx.entries.Sorted fun a b => a.fvalue ≤ b.fvalue)
    (hh : ∀ e ∈ ctx.entries, 0 ≤ ctx.hess e.rindex) :
    ∀ j e, ((j, e) ∈ ctx.fwdSweep) ↔
      (j < ctx.entries.length ∧ ctx.fwdCond j ∧ e = ctx.fwdCandAt j) := by
  intro j e
  unfold EnumCtx.fwdSweep
  rw [if_pos hdd]
  have h0 : ctx.csumG 0 = 0 := by simp [EnumCtx.csumG]
  have h0' : ctx.csumH 0 = 0 := by simp [EnumCtx.csumH]
  have hfix : ctx.fwdSweepAux 0 0 0 = ctx.fwdSweepAux 0 (ctx.csumG 0) (ctx.csumH 0) := by
    rw [h0, h0']
  rw [hfix, ctx.fwdSweepAux_spec hh ctx.entries.length 0 (by omega) j e]
  constructor
  · rintro ⟨-, hb, hc, hd⟩
    exact ⟨hb, hc, hd⟩
  · rintro ⟨hb, hc, hd⟩
    exact ⟨Nat.zero_le j, hb, hc, hd⟩

/-- C4 witness: on the column `[(1, row 0), (2, row 1)]` with unit hessians
and `min_child_weight = 1`, the forward sweep emits the candidate at
position 0. -/
theorem C4_forward_sweep_witness :
    (0, ctxW4.fwdCandAt 0) ∈ ctxW4.fwdSweep :=
  (C4_forward_sweep ctxW4 (by decide)
    (by norm_num [ctxW4, List.sorted_cons])
    (by
      intro e he
      norm_num [ctxW4]) 0
    (ctxW4.fwdCandAt 0)).mpr
    ⟨by norm_num [ctxW4],
     by
      norm_num [EnumCtx.fwdCond, EnumCtx.validPoint, EnumCtx.csumH, ctxW4,
        paramW, rt_2eps, rt_eps, dummySCEntry],
     rfl⟩

/-- C10: `enumerate_split` pushes the local selecter's result into the
global selecter even when no candidate was emitted by either sweep; in that
case the pushed entry is the zero-initialized one with `loss_chg = 0`, and
the push leaves any reachable global selecter state (the fold of prior
pushes from the zero-initialized entry) unchanged, because replacement
requires strict `>` and the global best's gain is never below 0. -/
theorem C10_empty_feature_push_identity (ctx : EnumCtx) (prior : List Entry)
    (hnone : ctx.fwdSweep = [] ∧ ctx.bwdSweep = []) :
    ctx.localBest = zeroEntry ∧
      ctx.enumerate_split (select prior) = select prior := by
  obtain ⟨hf, hb⟩ := hnone
  have hloc : ctx.localBest = zeroEntry := by
    unfold EnumCtx.localBest
    rw [hf, hb]
    rfl
  refine ⟨hloc, ?_⟩
  unfold EnumCtx.enumerate_split
  rw [hloc]
  have h0 : (0 : ℚ) ≤ (select prior).loss_chg := by
    simpa [zeroEntry] using (foldl_push_back_ge zeroEntry prior).1
  unfold push_back
  rw [if_neg (not_lt.mpr (by simpa [zeroEntry] using h0))]

/-- C10 witness: an empty column slice emits nothing, and the push leaves a
global selecter that already holds a positive-gain candidate unchanged. -/
theorem C10_empty_feature_push_identity_witness :
    ctxW10.localBest = zeroEntry ∧
      ctxW10.enumerate_split (select [Entry.mk 1 0 0 0 0]) =
        select [Entry.mk 1 0 0 0 0] :=
  C10_empty_feature_push_identity ctxW10 [Entry.mk 1 0 0 0 0]
    ⟨by simp [EnumCtx.fwdSweep, EnumCtx.fwdSweepAux, ctxW10, ctxW4],
     by simp [EnumCtx.bwdSweep, EnumCtx.bwdSweepAux, ctxW10, ctxW4]⟩

/-! ### Theorems about the root initializer -/

/-- C1 fails on the code: with `N = 1`, `hess = [-1]`,
`subsample = 1/2 < 1 - 1e-6`, and an RNG that accepts the single row, the
subsampling branch of `init_tasks` puts row 0 in the root idset even though
`hess[0] < 0` — the branch never consults `hess`, unlike the full-sample
branch and the grouped branch, both of which skip `hess[i] < 0`. -/
theorem C1_subsample_keeps_negative_hess :
    paramW.subsample ≤ 1 - 1 / 1000000 ∧
      init_idset_single paramW [-1] (fun _ => true) = [0] ∧
      ([(-1 : ℚ)].getD 0 0 < 0) := by
  refine ⟨by norm_num [paramW], ?_, by norm_num⟩
  unfold init_idset_single
  rw [if_neg (by norm_num [paramW])]
  rfl

/-! ### Theorems about the pruner -/

/-- C5: `try_prune_leaf(nid, depth)` does nothing at a root; otherwise it
increments the parent's `leaf_child_cnt` and, if that count reaches 2 and
`need_prune(stat(parent).loss_chg, depth - 1)` holds, converts the parent
to a leaf valued `learning_rate * stat(parent).base_weight`, adds exactly
2 to the pruned-node counter, and recurses on the parent at `depth - 1`;
otherwise the recursion stops.  Termination is established by the
function's own well-founded recursion, which strictly ascends toward a
root (`ParentLt`). -/
theorem C5_try_prune_leaf (p : TreeParamTrain) (t : RTree) (h : t.ParentLt)
    (nid : ℕ) (depth : ℤ) :
    (t.parents.getD nid none = none → try_prune_leaf p t h nid depth = (t, 0)) ∧
      (∀ pid, t.parents.getD nid none = some pid →
        (¬(2 ≤ (t.stat pid).leaf_child_cnt + 1 ∧
            p.need_prune (t.stat pid).loss_chg (depth - 1) = true) →
          try_prune_leaf p t h nid depth =
            (t.setStat pid { t.stat pid with
              leaf_child_cnt := (t.stat pid).leaf_child_cnt + 1 }, 0)) ∧
        ((2 ≤ (t.stat pid).leaf_child_cnt + 1 ∧
            p.need_prune (t.stat pid).loss_chg (depth - 1) = true) →
          try_prune_leaf p t h nid depth =
            ((try_prune_leaf p ((t.setStat pid { t.stat pid with
                leaf_child_cnt := (t.stat pid).leaf_child_cnt + 1 }).ChangeToLeaf
                pid (p.learning_rate * (t.stat pid).base_weight)) h pid
                (depth - 1)).1,
             (try_prune_leaf p ((t.setStat pid { t.stat pid with
                leaf_child_cnt := (t.stat pid).leaf_child_cnt + 1 }).ChangeToLeaf
                pid (p.learning_rate * (t.stat pid).base_weight)) h pid
                (depth - 1)).2 + 2))) := by
  constructor
  · intro hnone
    rw [try_prune_leaf.eq_def]
    split
    · rfl
    · rename_i pid hpar
      rw [hnone] at hpar
      exact Option.noConfusion hpar
  · intro pid hpid
    constructor
    · intro hcond
      rw [try_prune_leaf.eq_def]
      split
      · rename_i hpar
        rw [hpid] at hpar
        exact Option.noConfusion hpar
      · rename_i pid' hpar
        rw [hpid] at hpar
        obtain rfl : pid = pid' := (Option.some.injEq .. ▸ hpar).symm ▸ rfl
        rw [if_neg hcond]
    · intro hcond
      rw [try_prune_leaf.eq_def]
      split
      · rename_i hpar
        rw [hpid] at hpar
        exact Option.noConfusion hpar
      · rename_i pid' hpar
        rw [hpid] at hpar
        obtain rfl : pid = pid' := (Option.some.injEq .. ▸ hpar).symm ▸ rfl
        rw [if_pos hcond]

/-- C5 witness: on a concrete three-node tree, pruning from the root stops
immediately and changes nothing. -/
theorem C5_try_prune_leaf_witness :
    try_prune_leaf paramW treeW (by decide) 0 5 = (treeW, 0) :=
  (C5_try_prune_leaf paramW treeW (by decide) 0 5).1 rfl

/-! ### Theorems about the idset partition of `make_split` -/

/-- Helper: setting a slot at or past the taken prefix leaves the prefix
unchanged. -/
theorem take_set_eq (l : List ℕ) (n : ℕ) (v : ℕ) :
    (l.set n v).take n = l.take n := by
  apply List.ext_getElem
  · simp
  · intro i h1 h2
    simp only [List.getElem_take, List.getElem_set]
    rw [if_neg (by simp at h1; omega)]

/-- Helper: extending the taken prefix past a just-set slot appends the new
value. -/
theorem take_succ_set_eq (l : List ℕ) (n : ℕ) (v : ℕ) (h : n < l.length) :
    (l.set n v).take (n + 1) = l.take n ++ [v] := by
  rw [List.take_succ, take_set_eq]
  have hlen : n < (l.set n v).length := by simpa using h
  rw [List.getElem?_eq_getElem hlen, List.getElem_set]
  simp

/-- Helper: one `keptOf` unfolding on a head match. -/
theorem keptOf_cons_eq (x : ℕ) (xs ys : List ℕ) :
    keptOf (x :: xs) (x :: ys) = keptOf xs ys := by
  simp [keptOf]

/-- Helper: one `keptOf` unfolding on a head mismatch. -/
theorem keptOf_cons_ne (x y : ℕ) (xs ys : List ℕ) (h : x ≠ y) :
    keptOf (x :: xs) (y :: ys) = x :: keptOf xs (y :: ys) := by
  simp [keptOf, h]

/-- The in-place merge-removal loop, eliminated to its functional residue:
starting at read index `i` with `top` matches done, the final buffer is the
untouched prefix, then the copied kept elements, then the untouched tail.
The loop's writes always trail its reads, so reads see original values. -/
theorem msLoop_eq : ∀ n (q buf : List ℕ) (i top : ℕ), buf.length - i = n →
    top ≤ i → top ≤ q.length →
    msLoop q buf i top =
      buf.take (i - top) ++ keptOf (buf.drop i) (q.drop top) ++
        buf.drop ((i - top) + (keptOf (buf.drop i) (q.drop top)).length) := by
  intro n
  induction n with
  | zero =>
    intro q buf i top hn htop hq
    have hge : buf.length ≤ i := by omega
    rw [msLoop.eq_def, if_neg (by omega), List.drop_eq_nil_of_le hge]
    simp only [keptOf, List.append_nil, List.length_nil, Nat.add_zero]
    rw [List.take_append_drop]
  | succ m ih =>
    intro q buf i top hn htop hq
    have hi : i < buf.length := by omega
    have hdropb : buf.drop i = buf[i] :: buf.drop (i + 1) :=
      List.drop_eq_getElem_cons hi
    have hgd : buf.getD i 0 = buf[i] := List.getD_eq_getElem buf 0 hi
    rw [msLoop.eq_def, if_pos hi]
    by_cases htq : top < q.length
    · have hdropq : q.drop top = q[top] :: q.drop (top + 1) :=
        List.drop_eq_getElem_cons htq
      have hgq : q.getD top 0 = q[top] := List.getD_eq_getElem q 0 htq
      rw [if_pos htq]
      by_cases hne : buf.getD i 0 ≠ q.getD top 0
      · rw [if_pos hne]
        have hset : (buf.set (i - top) (buf.getD i 0)).length - (i + 1) = m := by
          simp only [List.length_set]
          omega
        rw [ih q _ (i + 1) top hset (by omega) hq]
        have hit : i - top < buf.length := by omega
        have e1 : (buf.set (i - top) (buf.getD i 0)).drop (i + 1) = buf.drop (i + 1) :=
          List.drop_set_of_lt _ _ (by omega)
        have e2 : (buf.set (i - top) (buf.getD i 0)).take (i + 1 - top) =
            buf.take (i - top) ++ [buf.getD i 0] := by
          have : i + 1 - top = (i - top) + 1 := by omega
          rw [this, take_succ_set_eq _ _ _ hit]
        have hkept : keptOf (buf.drop i) (q.drop top) =
            buf[i] :: keptOf (buf.drop (i + 1)) (q.drop top) := by
          rw [hdropb]
          conv_lhs => rw [hdropq]
          rw [keptOf_cons_ne _ _ _ _ (by rw [← hgd, ← hgq]; exact hne), ← hdropq]
        rw [e1, e2, hkept]
        have e3 : (buf.set (i - top) (buf.getD i 0)).drop
            ((i + 1 - top) + (keptOf (buf.drop (i + 1)) (q.drop top)).length) =
            buf.drop ((i - top) + (buf[i] :: keptOf (buf.drop (i + 1)) (q.drop top)).length) := by
          rw [List.drop_set_of_lt _ _ (by omega)]
          congr 1
          simp only [List.length_cons]
          omega
        rw [e3, hgd]
        simp
      · rw [if_neg hne]
        push_neg at hne
        rw [ih q buf (i + 1) (top + 1) (by omega) (by omega) (by omega)]
        have hkept : keptOf (buf.drop i) (q.drop top) =
            keptOf (buf.drop (i + 1)) (q.drop (top + 1)) := by
          rw [hdropb, hdropq]
          rw [show buf[i] = q[top] by rw [← hgd, ← hgq]; exact hne]
          exact keptOf_cons_eq _ _ _
        rw [hkept]
        congr 2
        · congr 1
          omega
        · congr 1
          omega
    · have htopq : top = q.length := by omega
      have hdropq : q.drop top = [] := List.drop_eq_nil_of_le (by omega)
      rw [if_neg htq]
      have hset : (buf.set (i - q.length) (buf.getD i 0)).length - (i + 1) = m := by
        simp only [List.length_set]
        omega
      rw [ih q _ (i + 1) top hset (by omega) hq]
      have hit : i - top < buf.length := by omega
      have e1 : (buf.set (i - q.length) (buf.getD i 0)).drop (i + 1) = buf.drop (i + 1) :=
        List.drop_set_of_lt _ _ (by omega)
      have e2 : (buf.set (i - q.length) (buf.getD i 0)).take (i + 1 - top) =
          buf.take (i - top) ++ [buf.getD i 0] := by
        have h1 : i - q.length = i - top := by omega
        have h2 : i + 1 - top = (i - top) + 1 := by omega
        rw [h1, h2, take_succ_set_eq _ _ _ hit]
      have hkept : keptOf (buf.drop i) (q.drop top) =
          buf[i] :: keptOf (buf.drop (i + 1)) (q.drop top) := by
        rw [hdropb, hdropq]
        simp [keptOf]
      rw [e1, e2, hkept]
      have e3 : (buf.set (i - q.length) (buf.getD i 0)).drop
          ((i + 1 - top) + (keptOf (buf.drop (i + 1)) (q.drop top)).length) =
          buf.drop ((i - top) + (buf[i] :: keptOf (buf.drop (i + 1)) (q.drop top)).length) := by
        rw [List.drop_set_of_lt _ _ (by omega)]
        congr 1
        simp only [List.length_cons]
        omega
      rw [e3, hgd]
      simp

/-- Helper: cancelling nothing keeps everything. -/
theorem keptOf_nil (l : List ℕ) : keptOf l [] = l := by
  induction l with
  | nil => simp [keptOf]
  | cons x xs ih => simp [keptOf, ih]

/-- Helper: on strictly-sorted `l` and `q` with `q`'s elements drawn from
`l`, the kept elements are exactly those outside `q`, the cancelled ones
are exactly `q` in order, and the counts add up. -/
theorem keptOf_spec : ∀ (l q : List ℕ), l.Pairwise (· < ·) →
    q.Pairwise (· < ·) → (∀ x ∈ q, x ∈ l) →
    keptOf l q = (l.filter fun x => !decide (x ∈ q)) ∧
      (l.filter fun x => decide (x ∈ q)) = q ∧
      q.length ≤ l.length ∧
      (keptOf l q).length = l.length - q.length := by
  intro l
  induction l with
  | nil =>
    intro q hl hq hsub
    cases q with
    | nil => simp [keptOf]
    | cons y ys => exact absurd (hsub y (by simp)) (by simp)
  | cons x xs ih =>
    intro q hl hq hsub
    have hxlt : ∀ b ∈ xs, x < b := (List.pairwise_cons.mp hl).1
    cases q with
    | nil =>
      refine ⟨?_, by simp, by simp, ?_⟩
      · rw [keptOf_nil]
        simp
      · rw [keptOf_nil]
        simp
    | cons y ys =>
      have hylt : ∀ b ∈ ys, y < b := (List.pairwise_cons.mp hq).1
      by_cases hxy : x = y
      · subst hxy
        have hsub' : ∀ w ∈ ys, w ∈ xs := by
          intro w hw
          have hwx : x < w := hylt w hw
          have : w ∈ x :: xs := hsub w (List.mem_cons_of_mem _ hw)
          rcases List.mem_cons.mp this with rfl | hmem
          · omega
          · exact hmem
        obtain ⟨ih1, ih2, ih3, ih4⟩ := ih ys hl.of_cons hq.of_cons hsub'
        have hcongr : ∀ z ∈ xs, decide (z ∈ x :: ys) = decide (z ∈ ys) := by
          intro z hz
          have hzx : x < z := hxlt z hz
          simp only [List.mem_cons, decide_eq_decide]
          constructor
          · rintro (rfl | hmem)
            · omega
            · exact hmem
          · exact Or.inr
        refine ⟨?_, ?_, by simp; omega, ?_⟩
        · rw [keptOf_cons_eq, ih1, List.filter_cons_of_neg (by simp)]
          apply List.filter_congr
          intro z hz
          rw [hcongr z hz]
        · rw [List.filter_cons_of_pos (by simp)]
          rw [List.filter_congr fun z hz => hcongr z hz, ih2]
        · rw [keptOf_cons_eq, ih4]
          simp only [List.length_cons]
          omega
      · have hyxs : y ∈ xs := by
          have : y ∈ x :: xs := hsub y (List.mem_cons_self y ys)
          rcases List.mem_cons.mp this with rfl | hmem
          · exact absurd rfl hxy
          · exact hmem
        have hxylt : x < y := hxlt y hyxs
        have hxq : x ∉ y :: ys := by
          intro hmem
          rcases List.mem_cons.mp hmem with rfl | hmem'
          · omega
          · have := hylt x hmem'
            omega
        have hsub' : ∀ w ∈ y :: ys, w ∈ xs := by
          intro w hw
          rcases List.mem_cons.mp hw with rfl | hmem
          · exact hyxs
          · have hyw : y < w := hylt w hmem
            have : w ∈ x :: xs := hsub w (List.mem_cons_of_mem _ hmem)
            rcases List.mem_cons.mp this with rfl | hmem'
            · omega
            · exact hmem'
        obtain ⟨ih1, ih2, ih3, ih4⟩ := ih (y :: ys) hl.of_cons hq hsub'
        refine ⟨?_, ?_, ?_, ?_⟩
        · rw [keptOf_cons_ne _ _ _ _ hxy, ih1,
            List.filter_cons_of_pos (by simpa using hxq)]
        · rw [List.filter_cons_of_neg (by simpa using hxq), ih2]
        · simp only [List.length_cons] at ih3 ⊢
          omega
        · rw [keptOf_cons_ne _ _ _ _ hxy]
          simp only [List.length_cons] at ih3 ih4 ⊢
          omega

/-- Helper: strictly-sorted from sorted-with-no-duplicates. -/
theorem pairwise_lt_of_le_nodup (l : List ℕ) (h : l.Pairwise (· ≤ ·))
    (hn : l.Nodup) : l.Pairwise (· < ·) :=
  (h.and hn).imp fun hab => lt_of_le_of_ne hab.1 hab.2

/-- Helper: the qset is sorted ≤ . -/
theorem qsetOf_sorted_le (entries : List SCEntry) :
    (qsetOf entries).Pairwise (· ≤ ·) := by
  have h := @List.sorted_mergeSort ℕ (fun a b : ℕ => decide (a ≤ b))
    (by intro a b c hab hbc; simp at hab hbc ⊢; omega)
    (by intro a b; simp; omega) (entries.map SCEntry.rindex)
  exact h.imp fun hab => by simpa using hab

/-- Helper: the qset is a permutation of the chosen entry slice's rows. -/
theorem qsetOf_perm (entries : List SCEntry) :
    (qsetOf entries).Perm (entries.map SCEntry.rindex) :=
  List.mergeSort_perm _ _

/-- C3: given a strictly ascending idset slice and a chosen entry slice
whose (distinct) row indices come from that idset, `make_split` partitions
the slice into the default side — the idset rows outside the qset, kept in
ascending order in the first `len - |qset|` positions — and the qset side,
the sorted qset itself; the two sides are disjoint, together a permutation
of the parent slice, and are handed to the two children according to
`default_left` (default side to the default child, qset side to the
other). -/
theorem C3_make_split_partition (t : RTree) (tsk : Task)
    (entries : List SCEntry) (lc bw : ℚ)
    (hsorted : tsk.idset.Pairwise (· < ·))
    (hnodup : (entries.map SCEntry.rindex).Nodup)
    (hsub : ∀ r ∈ entries.map SCEntry.rindex, r ∈ tsk.idset) :
    ((make_split t tsk entries lc bw).2.1.idset =
        tsk.idset.filter fun x => !decide (x ∈ qsetOf entries)) ∧
      (make_split t tsk entries lc bw).2.2.idset = qsetOf entries ∧
      ((make_split t tsk entries lc bw).2.2.idset).Perm
        (entries.map SCEntry.rindex) ∧
      ((make_split t tsk entries lc bw).2.1.idset ++
        (make_split t tsk entries lc bw).2.2.idset).Perm tsk.idset ∧
      ((make_split t tsk entries lc bw).2.1.idset).Pairwise (· < ·) ∧
      ((make_split t tsk entries lc bw).2.2.idset).Pairwise (· < ·) ∧
      (∀ x ∈ (make_split t tsk entries lc bw).2.1.idset,
        x ∉ (make_split t tsk entries lc bw).2.2.idset) ∧
      (make_split t tsk entries lc bw).2.1.idset.length =
        tsk.idset.length - (qsetOf entries).length ∧
      (make_split t tsk entries lc bw).2.1.nid =
        (if ((make_split t tsk entries lc bw).1.node tsk.nid).default_left
          then ((make_split t tsk entries lc bw).1.node tsk.nid).cleft
          else ((make_split t tsk entries lc bw).1.node tsk.nid).cright) ∧
      (make_split t tsk entries lc bw).2.2.nid =
        (if ((make_split t tsk entries lc bw).1.node tsk.nid).default_left
          then ((make_split t tsk entries lc bw).1.node tsk.nid).cright
          else ((make_split t tsk entries lc bw).1.node tsk.nid).cleft) := by
  have hqperm := qsetOf_perm entries
  have hqnodup : (qsetOf entries).Nodup := hqperm.symm.nodup hnodup
  have hqsorted : (qsetOf entries).Pairwise (· < ·) :=
    pairwise_lt_of_le_nodup _ (qsetOf_sorted_le entries) hqnodup
  have hqsub : ∀ x ∈ qsetOf entries, x ∈ tsk.idset := fun x hx =>
    hsub x (hqperm.mem_iff.mp hx)
  obtain ⟨hk1, hk2, hk3, hk4⟩ :=
    keptOf_spec tsk.idset (qsetOf entries) hsorted hqsorted hqsub
  have hbuf : msLoop (qsetOf entries) tsk.idset 0 0 =
      keptOf tsk.idset (qsetOf entries) ++
        tsk.idset.drop (keptOf tsk.idset (qsetOf entries)).length := by
    rw [msLoop_eq tsk.idset.length (qsetOf entries) tsk.idset 0 0 rfl
      (le_refl 0) (Nat.zero_le _)]
    simp
  have hdef : (make_split t tsk entries lc bw).2.1.idset =
      keptOf tsk.idset (qsetOf entries) := by
    show (msLoop (qsetOf entries) tsk.idset 0 0).take
        (tsk.idset.length - (qsetOf entries).length) =
      keptOf tsk.idset (qsetOf entries)
    rw [hbuf, ← hk4, List.take_left]
  have hspl : (make_split t tsk entries lc bw).2.2.idset = qsetOf entries := rfl
  have hdisj : ∀ x ∈ keptOf tsk.idset (qsetOf entries), x ∉ qsetOf entries := by
    intro x hx
    rw [hk1] at hx
    have := List.mem_filter.mp hx
    simpa using this.2
  refine ⟨by rw [hdef, hk1], hspl, hspl ▸ hqperm, ?_, ?_, hspl ▸ hqsorted,
    ?_, ?_, rfl, rfl⟩
  · rw [hdef, hspl, hk1]
    refine List.Perm.trans List.perm_append_comm ?_
    have h2 := List.filter_append_perm (fun x => decide (x ∈ qsetOf entries)) tsk.idset
    have hperm1 : (qsetOf entries).Perm
        (tsk.idset.filter fun x => decide (x ∈ qsetOf entries)) := by
      rw [hk2]
    exact List.Perm.trans (hperm1.append_right _) h2
  · rw [hdef, hk1]
    exact hsorted.filter _
  · intro x hx
    rw [hspl]
    exact hdisj x (hdef ▸ hx)
  · rw [hdef, hk4]

/-- C3 witness: on idset `[0,1,2]` with the chosen slice covering row 2,
the two child slices together permute the parent slice. -/
theorem C3_make_split_partition_witness :
    ((make_split treeW taskW entriesW 1 0).2.1.idset ++
      (make_split treeW taskW entriesW 1 0).2.2.idset).Perm taskW.idset :=
  (C3_make_split_partition treeW taskW entriesW 1 0 (by decide) (by decide)
    (by decide)).2.2.2.1

/-! ### Theorems about the prediction path -/

/-- Helper: on a `ChildGt` tree, stepping from an in-range internal node
strictly descends into an in-range child. -/
theorem get_next_bounds (t : RTree) (h : t.ChildGt) (pid : ℕ)
    (hpid : pid < t.nodes.length) (hleaf : (t.node pid).leaf = false)
    (fv : ℚ) (unk : Bool) :
    pid < get_next t pid fv unk ∧ get_next t pid fv unk < t.nodes.length := by
  have hall := List.all_eq_true.mp h pid (List.mem_range.mpr hpid)
  rw [hleaf] at hall
  simp only [Bool.false_or, Bool.and_eq_true, decide_eq_true_eq] at hall
  unfold get_next
  split_ifs <;> exact ⟨by omega, by omega⟩

/-- Helper: an out-of-range node id reads the default (leaf) node. -/
theorem node_out_of_range (t : RTree) (pid : ℕ) (hge : t.nodes.length ≤ pid) :
    t.node pid = defaultNodeCore := by
  unfold RTree.node
  rw [List.getD_eq_default _ _ hge]

/-- Helper: the walk always ends at a node whose `leaf` flag is set. -/
theorem GetLeafIndex_leaf (t : RTree) (h : t.ChildGt) (feat : ℕ → ℚ)
    (funknown : ℕ → Bool) :
    ∀ n pid, t.nodes.length - pid ≤ n →
      (t.node (GetLeafIndex t h feat funknown pid)).leaf = true := by
  intro n
  induction n with
  | zero =>
    intro pid hle
    have hl : (t.node pid).leaf = true := by
      rw [node_out_of_range t pid (by omega)]
      rfl
    rw [GetLeafIndex.eq_def, dif_pos hl]
    exact hl
  | succ m ihm =>
    intro pid hle
    by_cases hl : (t.node pid).leaf = true
    · rw [GetLeafIndex.eq_def, dif_pos hl]
      exact hl
    · rw [GetLeafIndex.eq_def, dif_neg hl]
      apply ihm
      have hpid : pid < t.nodes.length := by
        by_contra hge
        rw [node_out_of_range t pid (by omega)] at hl
        exact hl rfl
      have hb := get_next_bounds t h pid hpid (Bool.eq_false_iff.mpr hl)
        (feat (t.node pid).split_index) (funknown (t.node pid).split_index)
      omega

/-- C8: prediction walks the finished tree from the root `gid`: at an
internal node `get_next` goes to the left child iff `default_left` when the
split feature is unknown, and otherwise iff `fvalue < split_cond`
(equality goes right); `GetLeafIndex` iterates `get_next` on the node's
split feature until the first leaf, which it returns, and `Predict`
returns that leaf's value. -/
theorem C8_predict_walk (t : RTree) (h : t.ChildGt) (feat : ℕ → ℚ)
    (funknown : ℕ → Bool) (gid : ℕ) :
    (∀ pid fv, get_next t pid fv true =
        (if (t.node pid).default_left then (t.node pid).cleft
          else (t.node pid).cright)) ∧
      (∀ pid fv, get_next t pid fv false =
        (if fv < (t.node pid).split_cond then (t.node pid).cleft
          else (t.node pid).cright)) ∧
      (∀ pid fv, (t.node pid).split_cond ≤ fv →
        get_next t pid fv false = (t.node pid).cright) ∧
      (∀ pid, GetLeafIndex t h feat funknown pid =
        if (t.node pid).leaf = true then pid
        else GetLeafIndex t h feat funknown
          (get_next t pid (feat (t.node pid).split_index)
            (funknown (t.node pid).split_index))) ∧
      (t.node (GetLeafIndex t h feat funknown gid)).leaf = true ∧
      Predict t h feat funknown gid =
        (t.node (GetLeafIndex t h feat funknown gid)).leaf_value := by
  refine ⟨?_, ?_, ?_, ?_, ?_, rfl⟩
  · intro pid fv
    rfl
  · intro pid fv
    rfl
  · intro pid fv hle
    show (if fv < (t.node pid).split_cond then (t.node pid).cleft
      else (t.node pid).cright) = (t.node pid).cright
    rw [if_neg (not_lt.mpr hle)]
  · intro pid
    rw [GetLeafIndex.eq_def]
    split
    · rfl
    · rfl
  · exact GetLeafIndex_leaf t h feat funknown (t.nodes.length - gid) gid (le_refl _)

/-- C8 witness: on the concrete three-node tree the walk from the root
reaches a leaf. -/
theorem C8_predict_walk_witness :
    (treeW.node (GetLeafIndex treeW (by decide) (fun _ => 0) (fun _ => false)
      0)).leaf = true :=
  (C8_predict_walk treeW (by decide) (fun _ => 0) (fun _ => false)
    0).2.2.2.2.1

/-- Helper: positions no update touches keep their optional value under the
update fold. -/
theorem foldl_set_getElem?_of_ne {α β : Type} (row : List (ℕ × β))
    (g : ℕ × β → α) (k : ℕ) (hk : ∀ e ∈ row, e.1 ≠ k) :
    ∀ l0 : List α, (row.foldl (fun l e => l.set e.1 (g e)) l0)[k]? = l0[k]? := by
  induction row with
  | nil => intro l0; rfl
  | cons e rest ih =>
    intro l0
    simp only [List.foldl_cons]
    rw [ih (fun e2 he2 => hk e2 (List.mem_cons_of_mem _ he2))]
    exact List.getElem?_set_ne (hk e (List.mem_cons_self e rest))

/-- Helper: the update fold preserves length. -/
theorem foldl_set_length {α β : Type} (row : List (ℕ × β)) (g : ℕ × β → α) :
    ∀ l0 : List α, (row.foldl (fun l e => l.set e.1 (g e)) l0).length =
      l0.length := by
  induction row with
  | nil => intro l0; rfl
  | cons e rest ih =>
    intro l0
    simp only [List.foldl_cons]
    rw [ih]
    simp

/-- Helper: a touched, in-range position holds the constant after a fold
that writes the same constant everywhere. -/
theorem foldl_set_const_getElem? {α β : Type} (c : α) (row : List (ℕ × β))
    (k : ℕ) (hk : k ∈ row.map Prod.fst) :
    ∀ l0 : List α, k < l0.length →
      (row.foldl (fun l e => l.set e.1 c) l0)[k]? = some c := by
  induction row with
  | nil => simp at hk
  | cons e rest ih =>
    intro l0 hkl
    simp only [List.foldl_cons]
    by_cases hmem : k ∈ rest.map Prod.fst
    · exact ih hmem _ (by simpa using hkl)
    · have hke : e.1 = k := by
        simp only [List.map_cons, List.mem_cons] at hk
        rcases hk with hk | hk
        · exact hk.symm
        · exact absurd hk hmem
      have hrest : ∀ e2 ∈ rest, e2.1 ≠ k := by
        intro e2 he2 heq
        exact hmem (by
          rw [← heq]
          exact List.mem_map_of_mem Prod.fst he2)
      rw [foldl_set_getElem?_of_ne rest (fun _ => c) k hrest, hke,
        List.getElem?_set_self (by simpa using hkl)]

/-- C9: the sparse-row `Predict` restores the reusable unknown mask: if
`tmp_funknown` is all-`true` on entry (its initialized state, with the
scratch sized to `num_feature`) and the row's feature indices are in
bounds, then after the call every entry of `tmp_funknown` is `true` again,
and the dense scratch is unmodified at every index outside the row's
feature indices.  (The tree is a read-only argument of the embedding, so
it is unmodified by construction.) -/
theorem C9_sparse_predict_frame (t : RTree) (h : t.ChildGt) (nf : ℕ)
    (st : PredState) (row : List (ℕ × ℚ)) (gid : ℕ)
    (hfeat : st.tmp_feat.length = nf)
    (hunk : st.tmp_funknown = List.replicate nf true)
    (_hrow : ∀ e ∈ row, e.1 < nf) :
    (Predict_sparse t h nf st row gid).2.tmp_funknown = st.tmp_funknown ∧
      (∀ k, (∀ e ∈ row, e.1 ≠ k) →
        (Predict_sparse t h nf st row gid).2.tmp_feat.getD k 0 =
          st.tmp_feat.getD k 0) := by
  have hst0 : init_tmpfeat nf st = st := by
    unfold init_tmpfeat
    rw [if_neg (by omega)]
  constructor
  · show (row.foldl (fun m e => m.set e.1 true)
        (row.foldl (fun m e => m.set e.1 false)
          (init_tmpfeat nf st).tmp_funknown)) = st.tmp_funknown
    rw [hst0]
    have hlen1 : (row.foldl (fun m e => m.set e.1 false)
        st.tmp_funknown).length = st.tmp_funknown.length :=
      foldl_set_length row (fun _ => false) _
    have hlen2 : (row.foldl (fun m e => m.set e.1 true)
        (row.foldl (fun m e => m.set e.1 false)
          st.tmp_funknown)).length = st.tmp_funknown.length := by
      rw [foldl_set_length row (fun _ => true) _]
      exact hlen1
    apply List.ext_getElem?
    intro k
    by_cases hklen : k < st.tmp_funknown.length
    · by_cases hmem : k ∈ row.map Prod.fst
      · rw [foldl_set_const_getElem? true row k hmem _ (by omega)]
        have hkn : k < nf := by
          rw [hunk] at hklen
          simpa using hklen
        rw [hunk, List.getElem?_replicate, if_pos hkn]
      · have hne : ∀ e ∈ row, e.1 ≠ k := by
          intro e he hek
          exact hmem (hek ▸ List.mem_map_of_mem Prod.fst he)
        rw [foldl_set_getElem?_of_ne row (fun _ => true) k hne,
          foldl_set_getElem?_of_ne row (fun _ => false) k hne]
    · rw [List.getElem?_eq_none (by omega), List.getElem?_eq_none (by omega)]
  · intro k hk
    show (row.foldl (fun f e => f.set e.1 e.2)
        (init_tmpfeat nf st).tmp_feat).getD k 0 = st.tmp_feat.getD k 0
    rw [hst0]
    unfold List.getD
    rw [List.get?_eq_getElem?, List.get?_eq_getElem?,
      foldl_set_getElem?_of_ne row Prod.snd k hk]

/-- C9 witness: a concrete sparse prediction on the three-node tree with a
one-entry row restores the all-`true` mask and leaves the other dense
slots alone. -/
theorem C9_sparse_predict_frame_witness :
    (Predict_sparse treeW (by decide) 2
        ⟨[5, 7], List.replicate 2 true⟩ [(0, 3)] 0).2.tmp_funknown =
        List.replicate 2 true ∧
      (Predict_sparse treeW (by decide) 2
        ⟨[5, 7], List.replicate 2 true⟩ [(0, 3)] 0).2.tmp_feat.getD 1 0 =
        ([5, 7] : List ℚ).getD 1 0 :=
  ⟨(C9_sparse_predict_frame treeW (by decide) 2 ⟨[5, 7], List.replicate 2 true⟩
      [(0, 3)] 0 (by decide) rfl (by norm_num)).1,
   (C9_sparse_predict_frame treeW (by decide) 2 ⟨[5, 7], List.replicate 2 true⟩
      [(0, 3)] 0 (by decide) rfl (by norm_num)).2 1 (by norm_num)⟩

/-! ### Theorems about the expander's split-or-leaf decision -/

/-- Helper: `getD` of a just-set in-range slot. -/
theorem getD_set_self {α : Type} (l : List α) (n : ℕ) (v d : α)
    (h : n < l.length) : (l.set n v).getD n d = v := by
  unfold List.getD
  rw [List.get?_eq_getElem?, List.getElem?_set_self (by simpa using h)]
  rfl

/-- Helper: `getD` elsewhere is unaffected by a set. -/
theorem getD_set_ne {α : Type} (l : List α) (n m : ℕ) (v d : α) (h : n ≠ m) :
    (l.set n v).getD m d = l.getD m d := by
  unfold List.getD
  rw [List.get?_eq_getElem?, List.get?_eq_getElem?, List.getElem?_set_ne h]

/-- Helper: `getD` inside the left part of an append. -/
theorem getD_append_left {α : Type} (l r : List α) (n : ℕ) (d : α)
    (h : n < l.length) : (l ++ r).getD n d = l.getD n d := by
  unfold List.getD
  rw [List.get?_eq_getElem?, List.get?_eq_getElem?, List.getElem?_append_left h]


/-- Helper: pruning from `nid` only mutates proper ancestors of `nid`, so
every node and stat at an id at or above `nid` is untouched. -/
theorem try_prune_leaf_frame (p : TreeParamTrain) :
    ∀ nid (t : RTree) (h : t.ParentLt) (depth : ℤ) (j : ℕ), nid ≤ j →
      (try_prune_leaf p t h nid depth).1.node j = t.node j ∧
        (try_prune_leaf p t h nid depth).1.stat j = t.stat j := by
  intro nid
  induction nid using Nat.strong_induction_on with
  | _ nid ih =>
    intro t h depth j hj
    rw [try_prune_leaf.eq_def]
    split
    · exact ⟨rfl, rfl⟩
    · rename_i pid hpar
      have hpidlt : pid < nid := by
        by_cases hlen : nid < t.parents.length
        · have hall := List.all_eq_true.mp h nid (List.mem_range.mpr hlen)
          rw [hpar] at hall
          exact of_decide_eq_true hall
        · rw [List.getD_eq_default _ _ (by omega)] at hpar
          exact absurd hpar (Option.noConfusion)
      by_cases hcond : 2 ≤ (t.stat pid).leaf_child_cnt + 1 ∧
          p.need_prune (t.stat pid).loss_chg (depth - 1) = true
      · rw [if_pos hcond]
        have ih2 := ih pid hpidlt
          ((t.setStat pid { t.stat pid with
            leaf_child_cnt := (t.stat pid).leaf_child_cnt + 1 }).ChangeToLeaf pid
            (p.learning_rate * (t.stat pid).base_weight)) h (depth - 1) j
          (by omega)
        constructor
        · show (try_prune_leaf p ((t.setStat pid { t.stat pid with
              leaf_child_cnt := (t.stat pid).leaf_child_cnt + 1 }).ChangeToLeaf
              pid (p.learning_rate * (t.stat pid).base_weight)) h pid
              (depth - 1)).1.node j = t.node j
          rw [ih2.1]
          show (t.nodes.set pid _).getD j defaultNodeCore =
            t.nodes.getD j defaultNodeCore
          exact getD_set_ne _ _ _ _ _ (by omega)
        · show (try_prune_leaf p ((t.setStat pid { t.stat pid with
              leaf_child_cnt := (t.stat pid).leaf_child_cnt + 1 }).ChangeToLeaf
              pid (p.learning_rate * (t.stat pid).base_weight)) h pid
              (depth - 1)).1.stat j = t.stat j
          rw [ih2.2]
          show (t.stats.set pid _).getD j defaultStat = t.stats.getD j defaultStat
          exact getD_set_ne _ _ _ _ _ (by omega)
      · rw [if_neg hcond]
        constructor
        · rfl
        · show (t.stats.set pid _).getD j defaultStat = t.stats.getD j defaultStat
          exact getD_set_ne _ _ _ _ _ (by omega)

/-- Helper: `AddChilds` rewires the parent's child ids and keeps its other
fields. -/
theorem node_AddChilds_self (t : RTree) (nid : ℕ) (hn : nid < t.nodes.length) :
    (t.AddChilds nid).node nid =
      { t.node nid with cleft := t.nodes.length, cright := t.nodes.length + 1 } := by
  show ((t.nodes.set nid _) ++ [defaultNodeCore, defaultNodeCore]).getD nid
      defaultNodeCore = _
  rw [getD_append_left _ _ _ _ (by simpa using hn)]
  exact getD_set_self _ _ _ _ hn

/-- Helper: `AddChilds` keeps the target node's non-child fields. -/
theorem node_AddChilds_fields (t : RTree) (nid : ℕ) (hn : nid < t.nodes.length) :
    ((t.AddChilds nid).node nid).leaf = (t.node nid).leaf ∧
      ((t.AddChilds nid).node nid).split_index = (t.node nid).split_index ∧
      ((t.AddChilds nid).node nid).split_cond = (t.node nid).split_cond ∧
      ((t.AddChilds nid).node nid).default_left = (t.node nid).default_left := by
  rw [node_AddChilds_self t nid hn]
  exact ⟨rfl, rfl, rfl, rfl⟩

/-- Helper: `make_split` keeps the split node's discriminator and split
fields (the stat write and `AddChilds` touch neither). -/
theorem node_make_split_fields (t : RTree) (tsk : Task)
    (entries : List SCEntry) (lc bw : ℚ) (hn : tsk.nid < t.nodes.length) :
    ((make_split t tsk entries lc bw).1.node tsk.nid).leaf =
        (t.node tsk.nid).leaf ∧
      ((make_split t tsk entries lc bw).1.node tsk.nid).split_index =
        (t.node tsk.nid).split_index ∧
      ((make_split t tsk entries lc bw).1.node tsk.nid).split_cond =
        (t.node tsk.nid).split_cond ∧
      ((make_split t tsk entries lc bw).1.node tsk.nid).default_left =
        (t.node tsk.nid).default_left :=
  node_AddChilds_fields
    (t.setStat tsk.nid
      { loss_chg := lc, base_weight := bw, leaf_child_cnt := 0 }) tsk.nid
    (by simpa using hn)

/-- Helper: `make_split` writes exactly the claimed stat at the split
node. -/
theorem stat_make_split_self (t : RTree) (tsk : Task) (entries : List SCEntry)
    (lc bw : ℚ) (hs : tsk.nid < t.stats.length) :
    (make_split t tsk entries lc bw).1.stat tsk.nid =
      { loss_chg := lc, base_weight := bw, leaf_child_cnt := 0 } := by
  show ((t.stats.set tsk.nid _) ++ [defaultStat, defaultStat]).getD tsk.nid
      defaultStat = _
  rw [getD_append_left _ _ _ _ (by simpa using hs)]
  exact getD_set_self _ _ _ _ hs

/-- C2: for every task `expand` processes that survives the depth gate and
the `cannot_split` gate, a split is installed at the task's node iff the
global selecter's best gain strictly exceeds `rt_eps = 1e-5`; the
installed split carries the best entry's decoded
`(split_index, split_value, default_left)` and a node stat whose
`loss_chg` equals the best gain (hence every installed split node has
`loss_chg > 1e-5`), with two child tasks enqueued; otherwise the node
becomes a leaf of value
`learning_rate * CalcWeight(rsum_grad, rsum_hess, parent_base_weight)`
and no task is enqueued. -/
theorem C2_expand_gate (u : UpdCtx) (t : RTree) (h : t.ParentLt) (tsk : Task)
    (hn : tsk.nid < t.nodes.length) (hs : tsk.nid < t.stats.length)
    (hdepth : t.GetDepth tsk.nid < u.param.max_depth)
    (hcs : u.param.cannot_split (rsumH u tsk.idset)
      (t.GetDepth tsk.nid : ℤ) = false)
    (best : Entry)
    (hbest : best = (enumAll u tsk (rsumG u tsk.idset) (rsumH u tsk.idset)
      (u.param.CalcRootCost (rsumG u tsk.idset) (rsumH u tsk.idset))
      (u.param.CalcWeight (rsumG u tsk.idset) (rsumH u tsk.idset)
        tsk.parent_base_weight)).1) :
    (rt_eps < best.loss_chg →
      ((expand u t h tsk).1.node tsk.nid).leaf = false ∧
      ((expand u t h tsk).1.node tsk.nid).split_index = best.split_index ∧
      ((expand u t h tsk).1.node tsk.nid).split_cond = best.split_value ∧
      ((expand u t h tsk).1.node tsk.nid).default_left = best.default_left ∧
      ((expand u t h tsk).1.stat tsk.nid).loss_chg = best.loss_chg ∧
      rt_eps < ((expand u t h tsk).1.stat tsk.nid).loss_chg ∧
      (expand u t h tsk).2.1.length = 2) ∧
      (¬ rt_eps < best.loss_chg →
        ((expand u t h tsk).1.node tsk.nid).leaf = true ∧
        ((expand u t h tsk).1.node tsk.nid).leaf_value =
          u.param.learning_rate * u.param.CalcWeight (rsumG u tsk.idset)
            (rsumH u tsk.idset) tsk.parent_base_weight ∧
        (expand u t h tsk).2.1 = []) := by
  constructor
  · intro hgt
    have hgt2 : rt_eps < (enumAll u tsk (rsumG u tsk.idset) (rsumH u tsk.idset)
      (u.param.CalcRootCost (rsumG u tsk.idset) (rsumH u tsk.idset))
      (u.param.CalcWeight (rsumG u tsk.idset) (rsumH u tsk.idset)
        tsk.parent_base_weight)).1.loss_chg := by
      rw [← hbest]
      exact hgt
    have hexp : expand u t h tsk =
        ((make_split (t.set_split tsk.nid (enumAll u tsk (rsumG u tsk.idset) (rsumH u tsk.idset)
      (u.param.CalcRootCost (rsumG u tsk.idset) (rsumH u tsk.idset))
      (u.param.CalcWeight (rsumG u tsk.idset) (rsumH u tsk.idset)
        tsk.parent_base_weight)).1.split_index
      (enumAll u tsk (rsumG u tsk.idset) (rsumH u tsk.idset)
      (u.param.CalcRootCost (rsumG u tsk.idset) (rsumH u tsk.idset))
      (u.param.CalcWeight (rsumG u tsk.idset) (rsumH u tsk.idset)
        tsk.parent_base_weight)).1.split_value (enumAll u tsk (rsumG u tsk.idset) (rsumH u tsk.idset)
      (u.param.CalcRootCost (rsumG u tsk.idset) (rsumH u tsk.idset))
      (u.param.CalcWeight (rsumG u tsk.idset) (rsumH u tsk.idset)
        tsk.parent_base_weight)).1.default_left) tsk
      (List.take (enumAll u tsk (rsumG u tsk.idset) (rsumH u tsk.idset)
      (u.param.CalcRootCost (rsumG u tsk.idset) (rsumH u tsk.idset))
      (u.param.CalcWeight (rsumG u tsk.idset) (rsumH u tsk.idset)
        tsk.parent_base_weight)).1.len (List.drop (enumAll u tsk (rsumG u tsk.idset) (rsumH u tsk.idset)
      (u.param.CalcRootCost (rsumG u tsk.idset) (rsumH u tsk.idset))
      (u.param.CalcWeight (rsumG u tsk.idset) (rsumH u tsk.idset)
        tsk.parent_base_weight)).1.start (enumAll u tsk (rsumG u tsk.idset) (rsumH u tsk.idset)
      (u.param.CalcRootCost (rsumG u tsk.idset) (rsumH u tsk.idset))
      (u.param.CalcWeight (rsumG u tsk.idset) (rsumH u tsk.idset)
        tsk.parent_base_weight)).2.2))
      (enumAll u tsk (rsumG u tsk.idset) (rsumH u tsk.idset)
      (u.param.CalcRootCost (rsumG u tsk.idset) (rsumH u tsk.idset))
      (u.param.CalcWeight (rsumG u tsk.idset) (rsumH u tsk.idset)
        tsk.parent_base_weight)).1.loss_chg (u.param.CalcWeight (rsumG u tsk.idset) (rsumH u tsk.idset)
      tsk.parent_base_weight)).1, [(make_split (t.set_split tsk.nid (enumAll u tsk (rsumG u tsk.idset) (rsumH u tsk.idset)
      (u.param.CalcRootCost (rsumG u tsk.idset) (rsumH u tsk.idset))
      (u.param.CalcWeight (rsumG u tsk.idset) (rsumH u tsk.idset)
        tsk.parent_base_weight)).1.split_index
      (enumAll u tsk (rsumG u tsk.idset) (rsumH u tsk.idset)
      (u.param.CalcRootCost (rsumG u tsk.idset) (rsumH u tsk.idset))
      (u.param.CalcWeight (rsumG u tsk.idset) (rsumH u tsk.idset)
        tsk.parent_base_weight)).1.split_value (enumAll u tsk (rsumG u tsk.idset) (rsumH u tsk.idset)
      (u.param.CalcRootCost (rsumG u tsk.idset) (rsumH u tsk.idset))
      (u.param.CalcWeight (rsumG u tsk.idset) (rsumH u tsk.idset)
        tsk.parent_base_weight)).1.default_left) tsk
      (List.take (enumAll u tsk (rsumG u tsk.idset) (rsumH u tsk.idset)
      (u.param.CalcRootCost (rsumG u tsk.idset) (rsumH u tsk.idset))
      (u.param.CalcWeight (rsumG u tsk.idset) (rsumH u tsk.idset)
        tsk.parent_base_weight)).1.len (List.drop (enumAll u tsk (rsumG u tsk.idset) (rsumH u tsk.idset)
      (u.param.CalcRootCost (rsumG u tsk.idset) (rsumH u tsk.idset))
      (u.param.CalcWeight (rsumG u tsk.idset) (rsumH u tsk.idset)
        tsk.parent_base_weight)).1.start (enumAll u tsk (rsumG u tsk.idset) (rsumH u tsk.idset)
      (u.param.CalcRootCost (rsumG u tsk.idset) (rsumH u tsk.idset))
      (u.param.CalcWeight (rsumG u tsk.idset) (rsumH u tsk.idset)
        tsk.parent_base_weight)).2.2))
      (enumAll u tsk (rsumG u tsk.idset) (rsumH u tsk.idset)
      (u.param.CalcRootCost (rsumG u tsk.idset) (rsumH u tsk.idset))
      (u.param.CalcWeight (rsumG u tsk.idset) (rsumH u tsk.idset)
        tsk.parent_base_weight)).1.loss_chg (u.param.CalcWeight (rsumG u tsk.idset) (rsumH u tsk.idset)
      tsk.parent_base_weight)).2.1, (make_split (t.set_split tsk.nid (enumAll u tsk (rsumG u tsk.idset) (rsumH u tsk.idset)
      (u.param.CalcRootCost (rsumG u tsk.idset) (rsumH u tsk.idset))
      (u.param.CalcWeight (rsumG u tsk.idset) (rsumH u tsk.idset)
        tsk.parent_base_weight)).1.split_index
      (enumAll u tsk (rsumG u tsk.idset) (rsumH u tsk.idset)
      (u.param.CalcRootCost (rsumG u tsk.idset) (rsumH u tsk.idset))
      (u.param.CalcWeight (rsumG u tsk.idset) (rsumH u tsk.idset)
        tsk.parent_base_weight)).1.split_value (enumAll u tsk (rsumG u tsk.idset) (rsumH u tsk.idset)
      (u.param.CalcRootCost (rsumG u tsk.idset) (rsumH u tsk.idset))
      (u.param.CalcWeight (rsumG u tsk.idset) (rsumH u tsk.idset)
        tsk.parent_base_weight)).1.default_left) tsk
      (List.take (enumAll u tsk (rsumG u tsk.idset) (rsumH u tsk.idset)
      (u.param.CalcRootCost (rsumG u tsk.idset) (rsumH u tsk.idset))
      (u.param.CalcWeight (rsumG u tsk.idset) (rsumH u tsk.idset)
        tsk.parent_base_weight)).1.len (List.drop (enumAll u tsk (rsumG u tsk.idset) (rsumH u tsk.idset)
      (u.param.CalcRootCost (rsumG u tsk.idset) (rsumH u tsk.idset))
      (u.param.CalcWeight (rsumG u tsk.idset) (rsumH u tsk.idset)
        tsk.parent_base_weight)).1.start (enumAll u tsk (rsumG u tsk.idset) (rsumH u tsk.idset)
      (u.param.CalcRootCost (rsumG u tsk.idset) (rsumH u tsk.idset))
      (u.param.CalcWeight (rsumG u tsk.idset) (rsumH u tsk.idset)
        tsk.parent_base_weight)).2.2))
      (enumAll u tsk (rsumG u tsk.idset) (rsumH u tsk.idset)
      (u.param.CalcRootCost (rsumG u tsk.idset) (rsumH u tsk.idset))
      (u.param.CalcWeight (rsumG u tsk.idset) (rsumH u tsk.idset)
        tsk.parent_base_weight)).1.loss_chg (u.param.CalcWeight (rsumG u tsk.idset) (rsumH u tsk.idset)
      tsk.parent_base_weight)).2.2], 0) := by
      unfold expand
      rw [if_neg (not_le.mpr hdepth),
        if_neg (by rw [hcs]; exact Bool.false_ne_true), if_pos hgt2]
    rw [← hbest] at hexp
    rw [hexp]
    obtain ⟨hf1, hf2, hf3, hf4⟩ := node_make_split_fields
      (t.set_split tsk.nid best.split_index best.split_value best.default_left)
      tsk (List.take best.len (List.drop best.start (enumAll u tsk (rsumG u tsk.idset) (rsumH u tsk.idset)
      (u.param.CalcRootCost (rsumG u tsk.idset) (rsumH u tsk.idset))
      (u.param.CalcWeight (rsumG u tsk.idset) (rsumH u tsk.idset)
        tsk.parent_base_weight)).2.2)) best.loss_chg (u.param.CalcWeight (rsumG u tsk.idset) (rsumH u tsk.idset)
      tsk.parent_base_weight) (by simpa [RTree.set_split] using hn)
    have hsplit : (t.set_split tsk.nid best.split_index best.split_value
        best.default_left).node tsk.nid =
        { t.node tsk.nid with
          leaf := false
          split_index := best.split_index
          split_cond := best.split_value
          default_left := best.default_left } := by
      show (t.nodes.set tsk.nid _).getD tsk.nid defaultNodeCore = _
      exact getD_set_self _ _ _ _ hn
    have hstat := stat_make_split_self
      (t.set_split tsk.nid best.split_index best.split_value best.default_left)
      tsk (List.take best.len (List.drop best.start (enumAll u tsk (rsumG u tsk.idset) (rsumH u tsk.idset)
      (u.param.CalcRootCost (rsumG u tsk.idset) (rsumH u tsk.idset))
      (u.param.CalcWeight (rsumG u tsk.idset) (rsumH u tsk.idset)
        tsk.parent_base_weight)).2.2)) best.loss_chg (u.param.CalcWeight (rsumG u tsk.idset) (rsumH u tsk.idset)
      tsk.parent_base_weight) (by simpa using hs)
    refine ⟨?_, ?_, ?_, ?_, ?_, ?_, rfl⟩
    · rw [hf1, hsplit]
    · rw [hf2, hsplit]
    · rw [hf3, hsplit]
    · rw [hf4, hsplit]
    · rw [hstat]
    · rw [hstat]
      exact hgt
  · intro hle
    have hle2 : ¬ rt_eps < (enumAll u tsk (rsumG u tsk.idset) (rsumH u tsk.idset)
      (u.param.CalcRootCost (rsumG u tsk.idset) (rsumH u tsk.idset))
      (u.param.CalcWeight (rsumG u tsk.idset) (rsumH u tsk.idset)
        tsk.parent_base_weight)).1.loss_chg := by
      rw [← hbest]
      exact hle
    have hexp : expand u t h tsk =
        ((try_prune_leaf u.param (t.set_leaf tsk.nid
            (u.param.learning_rate * u.param.CalcWeight (rsumG u tsk.idset)
              (rsumH u tsk.idset) tsk.parent_base_weight)) h tsk.nid
            (t.GetDepth tsk.nid)).1, [],
          (try_prune_leaf u.param (t.set_leaf tsk.nid
            (u.param.learning_rate * u.param.CalcWeight (rsumG u tsk.idset)
              (rsumH u tsk.idset) tsk.parent_base_weight)) h tsk.nid
            (t.GetDepth tsk.nid)).2) := by
      unfold expand
      rw [if_neg (not_le.mpr hdepth),
        if_neg (by rw [hcs]; exact Bool.false_ne_true), if_neg hle2]
      unfold make_leaf
      rfl
    rw [hexp]
    have hframe := (try_prune_leaf_frame u.param tsk.nid
      (t.set_leaf tsk.nid
        (u.param.learning_rate * u.param.CalcWeight (rsumG u tsk.idset)
          (rsumH u tsk.idset) tsk.parent_base_weight)) h (t.GetDepth tsk.nid)
      tsk.nid (le_refl _)).1
    rw [hframe]
    have hleafnode : (t.set_leaf tsk.nid
        (u.param.learning_rate * u.param.CalcWeight (rsumG u tsk.idset)
          (rsumH u tsk.idset) tsk.parent_base_weight)).node tsk.nid =
        { t.node tsk.nid with
          leaf := true
          leaf_value := u.param.learning_rate * u.param.CalcWeight
            (rsumG u tsk.idset) (rsumH u tsk.idset)
            tsk.parent_base_weight } := by
      show (t.nodes.set tsk.nid _).getD tsk.nid defaultNodeCore = _
      exact getD_set_self _ _ _ _ hn
    rw [hleafnode]
    exact ⟨rfl, rfl, rfl⟩

/-- C2 witness: an empty-feature task at a fresh root has best gain 0, so
the node is made a leaf. -/
theorem C2_expand_gate_witness :
    ((expand uW2 treeW2 (by decide) taskW2).1.node 0).leaf = true :=
  (((C2_expand_gate uW2 treeW2 (by decide) taskW2 (by decide) (by decide)
      (by decide)
      (by
        show paramW.cannot_split ((([0] : List ℕ).map uW2.hess).sum) _ = false
        norm_num [paramW, uW2])
      zeroEntry rfl).2) (by norm_num [zeroEntry, rt_eps])).1

end XgbSvdf
